import Mathlib

/-!
Verification of the TrafficFlow core: a shallow embedding of the tick
scheduler (src/simulation/core.py), the vehicle car-following and
edge-transition state machine plus the per-edge spatial index and the
fleet manager's entry gate (src/agents/vehicle.py), and the two-phase
traffic lights with their controller (src/signals/lights.py).

Python floats are modelled as rationals; Python dicts with optional keys
are modelled with Option fields, `dict.get(k, d)` becoming `Option.getD`.
Association lists model Python dicts (insertion ordered, unique keys).
The single irrational quantity in the code, `math.sqrt(acceleration_max *
deceleration_comfortable)` inside the IDM desired-gap formula, is passed
in as an explicit parameter `sqrtAB`, so every statement below holds for
the actual square root as a special case.
-/

/-- Lookup in an association list, mirroring Python `dict.get(k)`. -/
def alistGet? {α β : Type} [DecidableEq α] (l : List (α × β)) (k : α) : Option β :=
  (l.find? (fun p => p.1 = k)).map (fun p => p.2)

/-- Dict assignment `d[k] = v`: overwrite in place, else append (Python
dicts keep the original key position on overwrite). -/
def alistSet {α β : Type} [DecidableEq α] : List (α × β) → α → β → List (α × β)
  | [], k, v => [(k, v)]
  | (k', v') :: rest, k, v =>
      if k' = k then (k, v) :: rest else (k', v') :: alistSet rest k v

/-- An edge record of the road network.  Fields are optional because the
Python code reads them with `dict.get`; `from`/`to` are renamed since
they are reserved words. -/
structure Edge where
  eid : Option String
  fromId : Option String
  toId : Option String
  length : Option ℚ
  speed_limit : Option ℚ
  capacity : Option ℤ
deriving DecidableEq, Repr

/-- The empty dict `{}` returned by `Vehicle._current_edge` on an empty
route. -/
def emptyEdge : Edge := ⟨none, none, none, none, none, none⟩

/-- A node record; `row`/`col` and the `x`/`y` fallbacks used by
`TrafficSignalController._orientation`. -/
structure Node where
  nid : Option String
  row : Option ℚ
  col : Option ℚ
  x : Option ℚ
  y : Option ℚ
deriving DecidableEq, Repr

/-- The empty dict used when a node id is not in the controller lookup. -/
def emptyNode : Node := ⟨none, none, none, none, none⟩

/-- Vehicle state, matching the dataclass fields of `Vehicle` in
src/agents/vehicle.py (defaults included). -/
structure Vehicle where
  vehicle_id : String
  route : List Edge
  patience : ℚ
  destination : String
  position : ℚ := 0
  velocity : ℚ := 0
  current_edge_index : ℕ := 0
  arrived : Bool := false
  length : ℚ := 9/2
  acceleration : ℚ := 0
  stuck_ticks : ℕ := 0
  stuck : Bool := false
  desired_time_headway : ℚ := 3/2
  minimum_spacing : ℚ := 2
  acceleration_max : ℚ := 1
  deceleration_comfortable : ℚ := 3/2
  delta : ℕ := 4
deriving DecidableEq, Repr

namespace Vehicle

/-- `Vehicle._current_edge`: the route edge at the index clamped to the
last edge, or the empty dict for an empty route. -/
def current_edge (v : Vehicle) : Edge :=
  if v.route.isEmpty then emptyEdge
  else v.route.getD (min v.current_edge_index (v.route.length - 1)) emptyEdge

/-- `Vehicle.current_edge_id`, with the `edge_{index}` fallback of
`dict.get("id", ...)`. -/
def current_edge_id (v : Vehicle) : String :=
  (v.current_edge.eid).getD ("edge_" ++ toString v.current_edge_index)

/-- `Vehicle.edge_remaining`: distance left on the current edge, a
missing length treated as 0. -/
def edge_remaining (v : Vehicle) : ℚ :=
  max ((v.current_edge.length).getD 0 - v.position) 0

/-- `Vehicle.desired_speed`: speed limit times patience, floored at 0; a
missing speed limit defaults to 0. -/
def desired_speed (v : Vehicle) : ℚ :=
  max ((v.current_edge.speed_limit).getD 0 * v.patience) 0

/-- `Vehicle._idm_desired_gap`; `sqrtAB` stands for
`math.sqrt(acceleration_max * deceleration_comfortable)`. -/
def idm_desired_gap (v : Vehicle) (sqrtAB : ℚ) (relative_speed : ℚ) : ℚ :=
  v.minimum_spacing +
    max 0 (v.velocity * v.desired_time_headway +
      (v.velocity * relative_speed) / (2 * sqrtAB))

/-- `Vehicle.compute_acceleration`.  The gap to a leader is `none` when
it is infinite (no same-edge leader), in which case the interaction term
is 0; the unused `dt` parameter of the Python signature is kept. -/
def compute_acceleration (v : Vehicle) (sqrtAB : ℚ) (leader : Option Vehicle)
    (_dt : ℚ) : ℚ :=
  let desired := v.desired_speed
  if desired ≤ 0 then -v.deceleration_comfortable
  else
    let gapRel : Option ℚ × ℚ :=
      match leader with
      | some l =>
          if l.current_edge_id = v.current_edge_id then
            (some (max (l.position - v.position - l.length) (1/10)),
             v.velocity - l.velocity)
          else (none, 0)
      | none => (none, 0)
    let s_star := v.idm_desired_gap sqrtAB gapRel.2
    let free_flow_term := (v.velocity / desired) ^ v.delta
    let interaction_term :=
      match gapRel.1 with
      | some gap => (s_star / gap) ^ 2
      | none => 0
    v.acceleration_max * (1 - free_flow_term - interaction_term)

/-- `Vehicle._advance_edge`: consume `distance` against the current edge;
returns the updated vehicle, leftover distance and the blocked flag. -/
def advance_edge (v : Vehicle) (distance : ℚ)
    (can_enter_next : Option (Edge → Edge → Bool)) : Vehicle × ℚ × Bool :=
  let remaining := v.edge_remaining
  if 0 < remaining ∧ distance < remaining then
    ({ v with position := v.position + min distance remaining }, 0, false)
  else
    let distance := distance - remaining
    let next_edge : Option Edge :=
      if v.current_edge_index + 1 < v.route.length then
        some (v.route.getD (v.current_edge_index + 1) emptyEdge)
      else none
    let refused : Bool :=
      match next_edge, can_enter_next with
      | some ne, some gate => ! gate v.current_edge ne
      | _, _ => false
    if refused then
      ({ v with position := (v.current_edge.length).getD v.position }, 0, true)
    else
      let v' := { v with position := 0,
                         current_edge_index := v.current_edge_index + 1 }
      if v.route.length ≤ v'.current_edge_index then
        ({ v' with arrived := true, velocity := 0 }, 0, false)
      else
        (v', distance, false)

/-- The `while remaining_distance > 0 and not self.arrived` loop of
`Vehicle.step`, with fuel.  Every iteration that continues strictly
increases `current_edge_index` below `route.length`, so fuel
`route.length + 1` always reaches the loop exit. -/
def step_loop (v : Vehicle) (distance : ℚ)
    (can_enter_next : Option (Edge → Edge → Bool)) : ℕ → Vehicle × Bool
  | 0 => (v, false)
  | fuel + 1 =>
      if 0 < distance ∧ v.arrived = false then
        let r := v.advance_edge distance can_enter_next
        let rest := step_loop r.1 r.2.1 can_enter_next fuel
        (rest.1, r.2.2 || rest.2)
      else (v, false)

/-- `Vehicle._update_stuck_state`. -/
def update_stuck_state (v : Vehicle) (was_blocked : Bool) : Vehicle :=
  let stationary : Bool := was_blocked || decide (v.velocity < 1/10)
  let ticks := if stationary = true ∧ v.arrived = false then v.stuck_ticks + 1 else 0
  { v with stuck_ticks := ticks, stuck := decide (5 ≤ ticks) }

/-- `Vehicle.step`: one tick of IDM dynamics plus the edge-transition
loop and stuck bookkeeping. -/
def step (v : Vehicle) (dt : ℚ) (sqrtAB : ℚ) (leader : Option Vehicle)
    (can_enter_next : Option (Edge → Edge → Bool)) : Vehicle :=
  if v.arrived then { v with acceleration := 0, velocity := 0 }
  else
    let a := v.compute_acceleration sqrtAB leader dt
    let new_velocity := max 0 (min v.desired_speed (v.velocity + a * dt))
    let distance := max (v.velocity * dt + a * dt * dt / 2) 0
    let v1 := { v with acceleration := a }
    let r := step_loop v1 distance can_enter_next (v.route.length + 1)
    let v2 := r.1
    let was_blocked := r.2
    let v3 :=
      if v2.arrived = false then
        { v2 with velocity := if was_blocked then 0 else new_velocity }
      else { v2 with velocity := 0 }
    v3.update_stuck_state was_blocked

end Vehicle

/-! ## Stable sorting

Python `list.sort` is stable; a stable sort by a key is uniquely
determined by the comparator, so a stable insertion sort models it
exactly.  `insort r x l` places `x` before the first element `y` with
`r x y` (strictly better), keeping the original order among ties. -/

/-- Stable insertion of one element: `x` goes before the first `y` such
that `r x y` holds. -/
def insort {α : Type} (r : α → α → Prop) [DecidableRel r] (x : α) :
    List α → List α
  | [] => [x]
  | y :: ys => if r x y then x :: y :: ys else y :: insort r x ys

/-- Stable insertion sort with strict comparator `r`. -/
def stableSort {α : Type} (r : α → α → Prop) [DecidableRel r] :
    List α → List α
  | [] => []
  | x :: xs => insort r x (stableSort r xs)

/-! ## EdgeSpatialIndex (src/agents/vehicle.py) -/

/-- The pair of nested dicts built by `EdgeSpatialIndex.build` before
ordering: per edge id, per bucket id, the vehicles in insertion order. -/
abbrev Bins := List (String × List (ℤ × List Vehicle))

/-- `int(position // bin_size)`: the bucket index of a vehicle. -/
def bucketId (bin_size : ℚ) (v : Vehicle) : ℤ := Rat.floor (v.position / bin_size)

/-- Append a vehicle to bucket `b` of an inner bucket dict
(`setdefault(bin_id, []).append(vehicle)`). -/
def bucketAppend (b : ℤ) (v : Vehicle) : List (ℤ × List Vehicle) → List (ℤ × List Vehicle)
  | [] => [(b, [v])]
  | (b', vs) :: rest =>
      if b' = b then (b', vs ++ [v]) :: rest else (b', vs) :: bucketAppend b v rest

/-- Append a vehicle to bucket `(edge, b)` of the nested dict
(`bins.setdefault(edge_id, {}).setdefault(bin_id, []).append(vehicle)`). -/
def binsAppend (e : String) (b : ℤ) (v : Vehicle) : Bins → Bins
  | [] => [(e, [(b, [v])])]
  | (e', inner) :: rest =>
      if e' = e then (e', bucketAppend b v inner) :: rest
      else (e', inner) :: binsAppend e b v rest

/-- `occupancy[edge_id] = occupancy.get(edge_id, 0) + 1`. -/
def occAppend (e : String) : List (String × ℕ) → List (String × ℕ)
  | [] => [(e, 1)]
  | (e', n) :: rest =>
      if e' = e then (e', n + 1) :: rest else (e', n) :: occAppend e rest

/-- The first loop of `EdgeSpatialIndex.build`: fill the nested bins and
the occupancy counts, skipping arrived vehicles. -/
def buildBins (bin_size : ℚ) : List Vehicle → Bins × List (String × ℕ) → Bins × List (String × ℕ)
  | [], st => st
  | v :: rest, st =>
      if v.arrived then buildBins bin_size rest st
      else
        buildBins bin_size rest
          (binsAppend v.current_edge_id (bucketId bin_size v) v st.1,
           occAppend v.current_edge_id st.2)

/-- The second loop of `EdgeSpatialIndex.build` for one edge: sort
buckets by bucket id descending, sort each bucket by position descending
(both sorts stable), and concatenate. -/
def orderEdge (inner : List (ℤ × List Vehicle)) : List Vehicle :=
  ((stableSort (fun p q : ℤ × List Vehicle => q.1 < p.1) inner).map
    (fun p => stableSort (fun a b : Vehicle => b.position < a.position) p.2)).flatten

/-- `EdgeSpatialIndex.build`: the per-edge ordered vehicle lists (edges
with an empty list omitted, as in the Python code) and the per-edge
occupancy counts. -/
def spatialBuild (bin_size : ℚ) (vehicles : List Vehicle) :
    List (String × List Vehicle) × List (String × ℕ) :=
  let st := buildBins bin_size vehicles ([], [])
  ((st.1.map (fun p => (p.1, orderEdge p.2))).filter (fun p => ¬p.2.isEmpty), st.2)

/-- The ordered queue of an edge, `[]` when the edge is absent. -/
def orderedAt (ordered : List (String × List Vehicle)) (e : String) : List Vehicle :=
  (alistGet? ordered e).getD []

/-- `occupancy.get(key, 0)` where the key may be `None`
(`next_edge.get("id")`): a `None` key is never present. -/
def occGet (occ : List (String × ℕ)) : Option String → ℕ
  | none => 0
  | some s => (alistGet? occ s).getD 0

/-! ## VehicleSpawner._can_enter_next_edge (src/agents/vehicle.py)

The composed entry gate.  `int(next_edge.get("capacity", math.inf))`
raises `OverflowError` in Python when the capacity field is missing
(`int(math.inf)` is not representable), so the embedding returns
`Except`: `.error` models the raised exception. -/

/-- Membership of an optional id in a set of edge ids (`None` is never a
member of a set of strings). -/
def optMem (oid : Option String) (s : List String) : Bool :=
  match oid with
  | none => false
  | some i => s.contains i

/-- `VehicleSpawner._can_enter_next_edge`.  The signal collaborator is
abstracted as an optional `can_enter` function, `none` when `signals is
None` or it lacks the capability. -/
def can_enter_next_edge (current_edge : Edge) (next_edge : Option Edge)
    (occupancy : List (String × ℕ)) (blocked_edges : List String)
    (signals : Option (Edge → Edge → Bool)) (closed_edges : List String) :
    Except String Bool :=
  match next_edge with
  | none => .ok true
  | some ne =>
    match ne.capacity with
    | none => .error "OverflowError: cannot convert float infinity to integer"
    | some next_capacity =>
      let next_id := ne.eid
      if next_capacity ≤ (occGet occupancy next_id : ℤ) then .ok false
      else if optMem next_id blocked_edges then .ok false
      else if optMem next_id closed_edges then .ok false
      else
        match signals with
        | some can_enter =>
            if can_enter current_edge ne then .ok true else .ok false
        | none => .ok true

/-! ## TrafficLight and TrafficSignalController (src/signals/lights.py) -/

/-- Two-phase traffic light state. -/
structure TrafficLight where
  phase_durations : List (String × ℚ) := [("NS", 30), ("EW", 30)]
  current_phase : String := "NS"
  elapsed : ℚ := 0
deriving DecidableEq, Repr

namespace TrafficLight

/-- `TrafficLight.tick`: accumulate `dt`; with a positive configured
duration for the current phase, flip NS/EW and reset `elapsed` once it
reaches the duration.  A missing duration reads as 0. -/
def tick (l : TrafficLight) (dt : ℚ) : TrafficLight :=
  let l := { l with elapsed := l.elapsed + dt }
  let duration := (alistGet? l.phase_durations l.current_phase).getD 0
  if duration ≤ 0 then l
  else if duration ≤ l.elapsed then
    { l with elapsed := 0,
             current_phase := if l.current_phase = "NS" then "EW" else "NS" }
  else l

/-- An ASCII `str.upper`, reducing on string literals. -/
def upperStr (s : String) : String := String.mk (s.data.map Char.toUpper)

/-- `TrafficLight.allows`. -/
def allows (l : TrafficLight) (orientation : String) : Bool :=
  l.current_phase = upperStr orientation

/-- Iterate `tick` over a list of time deltas. -/
def ticks (l : TrafficLight) : List ℚ → TrafficLight
  | [] => l
  | dt :: rest => (l.tick dt).ticks rest

/-- Iterate `tick` and count the ticks on which the phase switched. -/
def ticksFlips (l : TrafficLight) : List ℚ → TrafficLight × ℕ
  | [] => (l, 0)
  | dt :: rest =>
      let l' := l.tick dt
      let r := l'.ticksFlips rest
      (r.1, (if l'.current_phase = l.current_phase then 0 else 1) + r.2)

/-- Iterate `tick` a number of times with a fixed `dt`. -/
def tickIter (l : TrafficLight) (dt : ℚ) : ℕ → TrafficLight
  | 0 => l
  | n + 1 => (l.tickIter dt n).tick dt

end TrafficLight

/-- `node.get("row", node.get("y"))`: a row coordinate with the `y`
fallback used by the orientation derivation. -/
def rowY (n : Node) : Option ℚ :=
  match n.row with | some r => some r | none => n.y

/-- `node.get("col", node.get("x"))`: a column coordinate with the `x`
fallback. -/
def colX (n : Node) : Option ℚ :=
  match n.col with | some c => some c | none => n.x

/-- The signal controller: the per-node lights dict and the node lookup
dict built in `TrafficSignalController.__init__`. -/
structure TrafficSignalController where
  lights : List (String × TrafficLight)
  node_lookup : List (String × Node)
deriving Repr

namespace TrafficSignalController

/-- Lookup with an optional key (`self.lights.get(dest)` where `dest`
may be `None`); a `None` key is never present. -/
def getLight (c : TrafficSignalController) : Option String → Option TrafficLight
  | none => none
  | some i => alistGet? c.lights i

/-- `self._node_lookup.get(node_id, {})` with an optional key. -/
def getNode (c : TrafficSignalController) : Option String → Node
  | none => emptyNode
  | some i => (alistGet? c.node_lookup i).getD emptyNode

/-- `TrafficSignalController._orientation`: a row difference means NS, a
column difference means EW, anything degenerate defaults to NS; `row`
falls back to `y` and `col` falls back to `x`. -/
def orientation (c : TrafficSignalController) (from_id to_id : Option String) : String :=
  let from_row := rowY (c.getNode from_id)
  let to_row := rowY (c.getNode to_id)
  let from_col := colX (c.getNode from_id)
  let to_col := colX (c.getNode to_id)
  match from_row, to_row with
  | some fr, some tr =>
      if fr ≠ tr then "NS"
      else match from_col, to_col with
        | some fc, some tc => if fc ≠ tc then "EW" else "NS"
        | _, _ => "NS"
  | _, _ =>
      match from_col, to_col with
      | some fc, some tc => if fc ≠ tc then "EW" else "NS"
      | _, _ => "NS"

/-- `TrafficSignalController.can_enter`: no light at the destination node
always permits entry; otherwise the light's phase must match the
movement orientation. -/
def can_enter (c : TrafficSignalController) (current_edge : Edge)
    (_next_edge : Edge) : Bool :=
  let dest := current_edge.toId
  match c.getLight dest with
  | none => true
  | some light => light.allows (c.orientation current_edge.fromId dest)

end TrafficSignalController

/-! ## SimulationEngine (src/simulation/core.py)

Only the scheduling discipline is modelled: callbacks are opaque (they
cannot change the schedule of the tick being run, since the due list is
popped before callbacks execute), and `advance_tick` additionally
returns the list of agent names invoked, in invocation order. -/

/-- Scheduler state: the insertion-ordered agents dict (name to
interval) and the schedule dict (tick to due names). -/
structure SimEngine where
  tick : ℕ := 0
  agents : List (String × ℕ) := []
  schedule : List (ℕ × List String) := []
deriving DecidableEq, Repr

namespace SimEngine

/-- `SimulationEngine.register_agent`: store the interval (floored at 1)
and append the name to the start tick's schedule list. -/
def register_agent (e : SimEngine) (name : String) (start_tick interval : ℕ) :
    SimEngine :=
  { e with
    agents := alistSet e.agents name (max 1 interval),
    schedule :=
      match alistGet? e.schedule start_tick with
      | some names => alistSet e.schedule start_tick (names ++ [name])
      | none => e.schedule ++ [(start_tick, [name])] }

/-- Append a name to a tick's schedule list
(`self._schedule.setdefault(next_tick, []).append(name)`). -/
def schedAppend (e : SimEngine) (t : ℕ) (name : String) : SimEngine :=
  { e with schedule :=
      match alistGet? e.schedule t with
      | some names => alistSet e.schedule t (names ++ [name])
      | none => e.schedule ++ [(t, [name])] }

/-- `SimulationEngine._run_callbacks`: run each due agent (opaque here)
and reschedule it at `tick + interval`. -/
def run_callbacks (e : SimEngine) : List String → SimEngine
  | [] => e
  | name :: rest =>
      let interval := (alistGet? e.agents name).getD 1
      run_callbacks (e.schedAppend (e.tick + interval) name) rest

/-- `SimulationEngine.advance_tick`: pop the due list for the current
tick, run and reschedule each due agent in list order, then increment
the tick.  Also returns the names invoked, in invocation order. -/
def advance_tick (e : SimEngine) : SimEngine × List String :=
  let due := (alistGet? e.schedule e.tick).getD []
  let e1 := { e with schedule := e.schedule.filter (fun p => p.1 ≠ e.tick) }
  let e2 := run_callbacks e1 due
  ({ e2 with tick := e2.tick + 1 }, due)

end SimEngine

/-! ## Vehicles and lights used as concrete instances -/

/-- A concrete current edge with all fields present. -/
def edgeA : Edge :=
  { eid := some "e_west", fromId := some "n_0_0", toId := some "n_0_1",
    length := some 10, speed_limit := some 10, capacity := some 2 }

/-- A concrete destination edge whose capacity field is missing. -/
def edgeNoCapacity : Edge :=
  { eid := some "e_east", fromId := some "n_0_1", toId := some "n_0_2",
    length := some 10, speed_limit := some 10, capacity := none }

/-- C1.  For an entry-gate query whose destination edge record has no
capacity field, the Python expression
`int(next_edge.get("capacity", math.inf))` evaluates `int(math.inf)` and
raises `OverflowError`; the query does not return a boolean at all, so
the graceful unbounded-capacity degradation the claim describes does not
happen.  The embedding returns the raised exception as `.error`. -/
theorem C1_missing_capacity_raises :
    can_enter_next_edge edgeA (some edgeNoCapacity) [] [] none []
      = .error "OverflowError: cannot convert float infinity to integer" := rfl

/-- C10.  When the duration configured for the current phase is missing
or nonpositive, `tick` adds `dt` to `elapsed` but never resets it and
never switches the phase, so over any number of ticks the phase is held
and `elapsed` grows as `elapsed + n * dt`, without bound. -/
theorem C10_nonpositive_duration_holds_phase (l : TrafficLight) (dt : ℚ)
    (hd : (alistGet? l.phase_durations l.current_phase).getD 0 ≤ 0)
    (_hdt : 0 < dt) :
    ∀ n : ℕ, (l.tickIter dt n).current_phase = l.current_phase ∧
      (l.tickIter dt n).phase_durations = l.phase_durations ∧
      (l.tickIter dt n).elapsed = l.elapsed + n * dt := by
  intro n
  induction n with
  | zero => simp [TrafficLight.tickIter]
  | succ k ih =>
      obtain ⟨hp, hpd, he⟩ := ih
      have hd' : (alistGet? (l.tickIter dt k).phase_durations
          (l.tickIter dt k).current_phase).getD 0 ≤ 0 := by rw [hp, hpd]; exact hd
      constructor
      · simp only [TrafficLight.tickIter, TrafficLight.tick]
        rw [if_pos hd']
        exact hp
      constructor
      · simp only [TrafficLight.tickIter, TrafficLight.tick]
        rw [if_pos hd']
        exact hpd
      · simp only [TrafficLight.tickIter, TrafficLight.tick]
        rw [if_pos hd']
        simp only [he]
        push_cast
        ring

/-- A light whose current phase has no configured duration at all. -/
def lightNoDuration : TrafficLight :=
  { phase_durations := [("EW", 2)], current_phase := "NS", elapsed := 0 }

/-- Witness for C10 at a concrete light with a missing duration for the
active phase, run for three ticks of duration 1. -/
theorem C10_witness :
    ((alistGet? lightNoDuration.phase_durations lightNoDuration.current_phase).getD 0 ≤ 0)
    ∧ (0 : ℚ) < 1
    ∧ ((lightNoDuration.tickIter 1 3).current_phase = lightNoDuration.current_phase ∧
        (lightNoDuration.tickIter 1 3).phase_durations = lightNoDuration.phase_durations ∧
        (lightNoDuration.tickIter 1 3).elapsed = lightNoDuration.elapsed + ((3:ℕ):ℚ) * 1) :=
  ⟨le_refl 0, by norm_num,
   C10_nonpositive_duration_holds_phase lightNoDuration 1 (le_refl 0) (by norm_num) 3⟩

/-- Repeated stationary ticks: iterate `_update_stuck_state` with the
blocked flag set. -/
def stuckIter (v : Vehicle) : ℕ → Vehicle
  | 0 => v
  | n + 1 => (stuckIter v n).update_stuck_state true

theorem update_stuck_state_arrived (v : Vehicle) (b : Bool) :
    (v.update_stuck_state b).arrived = v.arrived := rfl

theorem update_stuck_state_velocity (v : Vehicle) (b : Bool) :
    (v.update_stuck_state b).velocity = v.velocity := rfl

theorem stuckIter_count (v : Vehicle) (h : v.arrived = false) :
    ∀ n : ℕ, (stuckIter v n).stuck_ticks = v.stuck_ticks + n ∧
      (stuckIter v n).arrived = false := by
  intro n
  induction n with
  | zero => simpa [stuckIter] using h
  | succ k ih =>
      obtain ⟨hc, ha⟩ := ih
      refine ⟨?_, ?_⟩
      · simp only [stuckIter, Vehicle.update_stuck_state, ha]
        simp [hc]
        omega
      · simp [stuckIter, update_stuck_state_arrived, ha]

/-- C4.  For a non-arrived vehicle the stationary counter increments
exactly when the tick was blocked or ended with velocity below 0.1 and
resets to 0 otherwise; `stuck` is exactly `counter at least 5`, so from a
zeroed counter it becomes true at the 5th consecutive stationary tick
and is false again on the first non-stationary tick. -/
theorem C4_stuck_counter (v : Vehicle) (h : v.arrived = false) (b : Bool) :
    ((v.update_stuck_state b).stuck_ticks =
        if b = true ∨ v.velocity < 1/10 then v.stuck_ticks + 1 else 0)
    ∧ ((v.update_stuck_state b).stuck =
        decide (5 ≤ (v.update_stuck_state b).stuck_ticks))
    ∧ (v.stuck_ticks = 0 → ∀ n : ℕ, 1 ≤ n →
        (stuckIter v n).stuck = decide (5 ≤ n))
    ∧ (1/10 ≤ v.velocity → (v.update_stuck_state false).stuck = false) := by
  refine ⟨?_, ?_, ?_, ?_⟩
  · simp [Vehicle.update_stuck_state, h]
  · simp [Vehicle.update_stuck_state]
  · intro h0 n _
    have hcount := (stuckIter_count v h n).1
    cases n with
    | zero => simp at *
    | succ k =>
        have ha : (stuckIter v k).arrived = false := (stuckIter_count v h k).2
        have hk : (stuckIter v k).stuck_ticks = v.stuck_ticks + k :=
          (stuckIter_count v h k).1
        simp only [stuckIter, Vehicle.update_stuck_state, ha]
        simp [hk, h0]
  · intro hv
    have hlt : ¬ (v.velocity < (10:ℚ)⁻¹) := by
      rw [← one_div]; exact not_lt.mpr hv
    simp [Vehicle.update_stuck_state, hlt, h]

/-- A concrete non-arrived vehicle sitting still on a single edge. -/
def wVehicle : Vehicle :=
  { vehicle_id := "v1", route := [edgeA], patience := 1,
    destination := "n_0_1", position := 3, velocity := 0 }

/-- Witness for C4 at a concrete stationary vehicle with the blocked
flag set. -/
theorem C4_witness :
    wVehicle.arrived = false
    ∧ ((wVehicle.update_stuck_state true).stuck_ticks =
          if true = true ∨ wVehicle.velocity < 1/10 then wVehicle.stuck_ticks + 1 else 0)
    ∧ ((wVehicle.update_stuck_state true).stuck =
          decide (5 ≤ (wVehicle.update_stuck_state true).stuck_ticks))
    ∧ (wVehicle.stuck_ticks = 0 → ∀ n : ℕ, 1 ≤ n →
          (stuckIter wVehicle n).stuck = decide (5 ≤ n))
    ∧ (1/10 ≤ wVehicle.velocity → (wVehicle.update_stuck_state false).stuck = false) :=
  ⟨rfl, C4_stuck_counter wVehicle rfl true⟩

/-! ## C5: traffic light phase switching -/

/-- Helper: while the accumulated elapsed time stays strictly below the
current phase's configured duration, no tick flips the phase and
`elapsed` just accumulates the deltas. -/
theorem ticksFlips_no_flip (dts : List ℚ) : ∀ (l : TrafficLight) (d : ℚ),
    alistGet? l.phase_durations l.current_phase = some d →
    (∀ x ∈ dts, 0 ≤ x) → 0 ≤ l.elapsed → l.elapsed + dts.sum < d →
    l.ticksFlips dts = ({ l with elapsed := l.elapsed + dts.sum }, 0) := by
  induction dts with
  | nil =>
      intro l d _ _ _ _
      simp [TrafficLight.ticksFlips]
  | cons dt rest ih =>
      intro l d hd hnn he hsum
      have hdt : 0 ≤ dt := hnn dt (List.mem_cons_self dt rest)
      have hrest : ∀ x ∈ rest, 0 ≤ x := fun x hx => hnn x (List.mem_cons_of_mem dt hx)
      have hrestsum : 0 ≤ rest.sum := List.sum_nonneg hrest
      have hsum' : l.elapsed + (dt + rest.sum) < d := by
        simpa [List.sum_cons] using hsum
      have hd0 : 0 < d :=
        lt_of_le_of_lt (add_nonneg he (add_nonneg hdt hrestsum)) (by linarith)
      have hnoflip : ¬ d ≤ l.elapsed + dt := by
        push_neg
        linarith
      have htick : l.tick dt = { l with elapsed := l.elapsed + dt } := by
        simp only [TrafficLight.tick, hd, Option.getD_some]
        rw [if_neg (not_le.mpr hd0), if_neg hnoflip]
      have hrec := ih { l with elapsed := l.elapsed + dt } d hd hrest
        (add_nonneg he hdt) (by simpa [add_assoc] using hsum')
      simp only [TrafficLight.ticksFlips, htick, hrec]
      simp [List.sum_cons, add_assoc]

/-- Helper: the concrete light of the spec example, with durations
NS = 1.0 and EW = 2.0 and an arbitrary starting elapsed below the NS
threshold, flips exactly once over any nonnegative deltas whose
cumulative total lands in the interval from 1 up to (but excluding) 3. -/
theorem ticksFlips_one_flip (dts : List ℚ) : ∀ e : ℚ,
    (∀ x ∈ dts, 0 ≤ x) → 0 ≤ e → e < 1 → 1 ≤ e + dts.sum → e + dts.sum < 3 →
    ((TrafficLight.mk [("NS", 1), ("EW", 2)] "NS" e).ticksFlips dts).1.current_phase = "EW"
    ∧ ((TrafficLight.mk [("NS", 1), ("EW", 2)] "NS" e).ticksFlips dts).2 = 1 := by
  induction dts with
  | nil =>
      intro e _ _ he1 hge _
      exfalso
      simp only [List.sum_nil, add_zero] at hge
      linarith
  | cons dt rest ih =>
      intro e hnn he0 he1 hge hlt
      have hdt : 0 ≤ dt := hnn dt (List.mem_cons_self dt rest)
      have hrest : ∀ x ∈ rest, 0 ≤ x := fun x hx => hnn x (List.mem_cons_of_mem dt hx)
      have hrestsum : 0 ≤ rest.sum := List.sum_nonneg hrest
      have hNS : alistGet? [(("NS":String), (1:ℚ)), ("EW", 2)] "NS" = some 1 := rfl
      have hEW : alistGet? [(("NS":String), (1:ℚ)), ("EW", 2)] "EW" = some 2 := rfl
      have hsumc : (dt :: rest).sum = dt + rest.sum := List.sum_cons
      by_cases hflip : (1:ℚ) ≤ e + dt
      · have htick : (TrafficLight.mk [("NS", 1), ("EW", 2)] "NS" e).tick dt
            = TrafficLight.mk [("NS", 1), ("EW", 2)] "EW" 0 := by
          simp only [TrafficLight.tick, hNS, Option.getD_some]
          rw [if_neg (by norm_num), if_pos hflip]
          simp
        have hrec := ticksFlips_no_flip rest
          (TrafficLight.mk [("NS", 1), ("EW", 2)] "EW" 0) 2 hEW hrest (le_refl 0)
          (by
            rw [hsumc] at hlt
            simp only [zero_add]
            linarith)
        simp only [TrafficLight.ticksFlips, htick, hrec]
        exact ⟨by decide, by decide⟩
      · have htick : (TrafficLight.mk [("NS", 1), ("EW", 2)] "NS" e).tick dt
            = TrafficLight.mk [("NS", 1), ("EW", 2)] "NS" (e + dt) := by
          simp only [TrafficLight.tick, hNS, Option.getD_some]
          rw [if_neg (by norm_num), if_neg hflip]
        have hrec := ih (e + dt) hrest (add_nonneg he0 hdt) (not_le.mp hflip)
          (by rw [hsumc] at hge; linarith [List.sum_cons (a := dt) (l := rest)])
          (by rw [hsumc] at hlt; linarith)
        simp only [TrafficLight.ticksFlips, htick]
        simp only [hrec.1, hrec.2]
        norm_num

/-- C5.  With a positive configured duration for the current phase,
`tick dt` switches the phase exactly when the accumulated elapsed time
reaches or exceeds that duration, and a switch resets `elapsed` to 0
(overflow discarded).  In particular, a light configured with NS = 1.0
and EW = 2.0 starting in NS is still NS after any nonnegative deltas
summing to 0.5, and has flipped exactly once, to EW, after any
nonnegative deltas summing to 1.1. -/
theorem C5_traffic_light_switching :
    (∀ (l : TrafficLight) (dt d : ℚ),
      alistGet? l.phase_durations l.current_phase = some d → 0 < d →
      (((l.tick dt).current_phase ≠ l.current_phase) ↔ d ≤ l.elapsed + dt)
      ∧ (d ≤ l.elapsed + dt → (l.tick dt).elapsed = 0))
    ∧ (∀ dts : List ℚ, (∀ x ∈ dts, 0 ≤ x) → dts.sum = 1/2 →
        ((TrafficLight.mk [("NS", 1), ("EW", 2)] "NS" 0).ticksFlips dts).1.current_phase = "NS"
        ∧ ((TrafficLight.mk [("NS", 1), ("EW", 2)] "NS" 0).ticksFlips dts).2 = 0)
    ∧ (∀ dts : List ℚ, (∀ x ∈ dts, 0 ≤ x) → dts.sum = 11/10 →
        ((TrafficLight.mk [("NS", 1), ("EW", 2)] "NS" 0).ticksFlips dts).1.current_phase = "EW"
        ∧ ((TrafficLight.mk [("NS", 1), ("EW", 2)] "NS" 0).ticksFlips dts).2 = 1) := by
  have hswitch : ∀ (l : TrafficLight) (dt d : ℚ),
      alistGet? l.phase_durations l.current_phase = some d → 0 < d →
      d ≤ l.elapsed + dt →
      l.tick dt =
        { l with
            elapsed := 0
            current_phase := (if l.current_phase = "NS" then "EW" else "NS") } := by
    intro l dt d hd hd0 hge
    simp only [TrafficLight.tick, hd, Option.getD_some]
    rw [if_neg (not_le.mpr hd0), if_pos hge]
  have hstay : ∀ (l : TrafficLight) (dt d : ℚ),
      alistGet? l.phase_durations l.current_phase = some d → 0 < d →
      ¬ d ≤ l.elapsed + dt →
      l.tick dt = { l with elapsed := l.elapsed + dt } := by
    intro l dt d hd hd0 hlt
    simp only [TrafficLight.tick, hd, Option.getD_some]
    rw [if_neg (not_le.mpr hd0), if_neg hlt]
  refine ⟨?_, ?_, ?_⟩
  · intro l dt d hd hd0
    refine ⟨⟨?_, ?_⟩, ?_⟩
    · intro hne
      by_contra hlt
      rw [hstay l dt d hd hd0 hlt] at hne
      exact hne rfl
    · intro hge
      rw [hswitch l dt d hd hd0 hge]
      show (if l.current_phase = "NS" then "EW" else "NS") ≠ l.current_phase
      by_cases hns : l.current_phase = "NS"
      · rw [if_pos hns, hns]
        decide
      · rw [if_neg hns]
        exact fun h => hns h.symm
    · intro hge
      rw [hswitch l dt d hd hd0 hge]
  · intro dts hnn hsum
    have hNS : alistGet? [(("NS":String), (1:ℚ)), ("EW", 2)] "NS" = some 1 := rfl
    have := ticksFlips_no_flip dts (TrafficLight.mk [("NS", 1), ("EW", 2)] "NS" 0) 1
      hNS hnn (le_refl 0) (by rw [hsum]; norm_num)
    rw [this]
    exact ⟨rfl, rfl⟩
  · intro dts hnn hsum
    exact ticksFlips_one_flip dts 0 hnn (le_refl 0) (by norm_num)
      (by rw [hsum]; norm_num) (by rw [hsum]; norm_num)

/-- Witness for C5: the per-tick characterization at a concrete light on
the verge of switching, and the two spec trajectories realised by the
delta lists `[0.5]` and `[0.5, 0.6]`. -/
theorem C5_witness :
    (alistGet? ([("NS", 1), ("EW", 2)] : List (String × ℚ)) "NS" = some 1 ∧ (0:ℚ) < 1
      ∧ ((((TrafficLight.mk [("NS", 1), ("EW", 2)] "NS" 0).tick 1).current_phase
            ≠ (TrafficLight.mk [("NS", 1), ("EW", 2)] "NS" 0).current_phase) ↔
          (1:ℚ) ≤ 0 + 1))
    ∧ ((∀ x ∈ ([1/2] : List ℚ), 0 ≤ x) ∧ ([1/2] : List ℚ).sum = 1/2
      ∧ ((TrafficLight.mk [("NS", 1), ("EW", 2)] "NS" 0).ticksFlips [1/2]).1.current_phase = "NS")
    ∧ ((∀ x ∈ ([1/2, 3/5] : List ℚ), 0 ≤ x) ∧ ([1/2, 3/5] : List ℚ).sum = 11/10
      ∧ ((TrafficLight.mk [("NS", 1), ("EW", 2)] "NS" 0).ticksFlips [1/2, 3/5]).2 = 1) := by
  refine ⟨⟨rfl, by norm_num, ?_⟩, ⟨?_, ?_, ?_⟩, ⟨?_, ?_, ?_⟩⟩
  · exact (C5_traffic_light_switching.1 (TrafficLight.mk [("NS", 1), ("EW", 2)] "NS" 0)
      1 1 rfl (by norm_num)).1
  · intro x hx; simp at hx; rw [hx]; norm_num
  · norm_num
  · exact (C5_traffic_light_switching.2.1 [1/2]
      (by intro x hx; simp at hx; rw [hx]; norm_num) (by norm_num)).1
  · intro x hx; simp at hx; rcases hx with h | h <;> rw [h] <;> norm_num
  · norm_num
  · exact (C5_traffic_light_switching.2.2 [1/2, 3/5]
      (by intro x hx; simp at hx; rcases hx with h | h <;> rw [h] <;> norm_num)
      (by norm_num)).2

/-! ## C7: the signal controller entry rule -/

/-- The entry rule in the words of the specification: if no light exists
at the destination node of the current edge, entry is always permitted;
otherwise entry is permitted exactly when the light's current phase
equals the derived movement orientation. -/
def can_enter_spec (c : TrafficSignalController) (current_edge : Edge) : Bool :=
  match c.getLight current_edge.toId with
  | none => true
  | some light =>
      decide (light.current_phase =
        c.orientation current_edge.fromId current_edge.toId)

/-- The orientation derivation only ever produces the two phase names. -/
theorem orientation_cases (c : TrafficSignalController) (f t : Option String) :
    c.orientation f t = "NS" ∨ c.orientation f t = "EW" := by
  unfold TrafficSignalController.orientation
  rcases rowY (c.getNode f) with _ | fr <;>
    rcases rowY (c.getNode t) with _ | tr <;>
    rcases colX (c.getNode f) with _ | fc <;>
    rcases colX (c.getNode t) with _ | tc <;>
    simp only [] <;>
    (try split_ifs) <;>
    simp

/-- C7.  The controller's `can_enter` agrees everywhere with the rule
the claim states: absent light means entry is permitted, and otherwise
entry is permitted exactly when the current phase equals the derived
orientation; the orientation is NS when both row coordinates are present
and differ, EW when the rows do not differ but both column coordinates
are present and differ, and NS in every degenerate or missing case. -/
theorem C7_signal_gate :
    (∀ (c : TrafficSignalController) (cur nxt : Edge),
      c.can_enter cur nxt = can_enter_spec c cur)
    ∧ (∀ (c : TrafficSignalController) (f t : Option String) (fr tr : ℚ),
        rowY (c.getNode f) = some fr → rowY (c.getNode t) = some tr → fr ≠ tr →
        c.orientation f t = "NS")
    ∧ (∀ (c : TrafficSignalController) (f t : Option String) (fc tc : ℚ),
        (∀ fr tr : ℚ, rowY (c.getNode f) = some fr → rowY (c.getNode t) = some tr →
          fr = tr) →
        colX (c.getNode f) = some fc → colX (c.getNode t) = some tc → fc ≠ tc →
        c.orientation f t = "EW")
    ∧ (∀ (c : TrafficSignalController) (f t : Option String),
        (∀ fr tr : ℚ, rowY (c.getNode f) = some fr → rowY (c.getNode t) = some tr →
          fr = tr) →
        (∀ fc tc : ℚ, colX (c.getNode f) = some fc → colX (c.getNode t) = some tc →
          fc = tc) →
        c.orientation f t = "NS") := by
  refine ⟨?_, ?_, ?_, ?_⟩
  · intro c cur nxt
    unfold TrafficSignalController.can_enter can_enter_spec
    cases h : c.getLight cur.toId with
    | none => simp [h]
    | some light =>
        simp only [h, TrafficLight.allows]
        rcases orientation_cases c cur.fromId cur.toId with ho | ho <;> rw [ho] <;> rfl
  · intro c f t fr tr hf ht hne
    unfold TrafficSignalController.orientation
    rw [hf, ht]
    simp only []
    rw [if_pos hne]
  · intro c f t fc tc hrow hcf hct hne
    unfold TrafficSignalController.orientation
    rw [hcf, hct]
    rcases hfr : rowY (c.getNode f) with _ | fr <;>
      rcases htr : rowY (c.getNode t) with _ | tr
    · simp only []
      rw [if_pos hne]
    · simp only []
      rw [if_pos hne]
    · simp only []
      rw [if_pos hne]
    · have h1 : fr = tr := hrow fr tr hfr htr
      simp only []
      rw [if_neg (by simp [h1]), if_pos hne]
  · intro c f t hrow hcol
    unfold TrafficSignalController.orientation
    rcases hfr : rowY (c.getNode f) with _ | fr <;>
      rcases htr : rowY (c.getNode t) with _ | tr <;>
      rcases hfc : colX (c.getNode f) with _ | fc <;>
      rcases htc : colX (c.getNode t) with _ | tc <;>
      simp only []
    · rw [if_neg (by simp [hcol fc tc hfc htc])]
    · rw [if_neg (by simp [hcol fc tc hfc htc])]
    · rw [if_neg (by simp [hcol fc tc hfc htc])]
    · rw [ite_self]
    · rw [ite_self]
    · rw [ite_self]
    · rw [if_neg (by simp [hrow fr tr hfr htr]),
          if_neg (by simp [hcol fc tc hfc htc])]

/-- A concrete node at grid row 0, column 0. -/
def wNode00 : Node :=
  { nid := some "n_0_0", row := some 0, col := some 0, x := none, y := none }

/-- A concrete node at grid row 1, column 0. -/
def wNode10 : Node :=
  { nid := some "n_1_0", row := some 1, col := some 0, x := none, y := none }

/-- A concrete controller with one light, at node n_1_0. -/
def wCtrl : TrafficSignalController :=
  { lights := [("n_1_0",
      { phase_durations := [("NS", 30), ("EW", 30)], current_phase := "NS",
        elapsed := 0 })],
    node_lookup := [("n_0_0", wNode00), ("n_1_0", wNode10)] }

/-- A concrete edge from n_0_0 to n_1_0 (a north-south movement). -/
def wEdgeNS : Edge :=
  { eid := some "e_ns", fromId := some "n_0_0", toId := some "n_1_0",
    length := some 100, speed_limit := some 10, capacity := some 4 }

/-- Witness for C7 at a concrete controller and edge whose endpoint rows
differ. -/
theorem C7_witness :
    (wCtrl.can_enter wEdgeNS emptyEdge = can_enter_spec wCtrl wEdgeNS)
    ∧ rowY (wCtrl.getNode wEdgeNS.fromId) = some 0
    ∧ rowY (wCtrl.getNode wEdgeNS.toId) = some 1
    ∧ (0:ℚ) ≠ 1
    ∧ wCtrl.orientation wEdgeNS.fromId wEdgeNS.toId = "NS" :=
  ⟨C7_signal_gate.1 wCtrl wEdgeNS emptyEdge,
   rfl, rfl, by norm_num,
   C7_signal_gate.2.1 wCtrl wEdgeNS.fromId wEdgeNS.toId 0 1 rfl rfl (by norm_num)⟩

/-! ## C2: scheduler invocation order -/

theorem alistGet?_cons {α β : Type} [DecidableEq α] (k' : α) (v' : β)
    (l : List (α × β)) (k : α) :
    alistGet? ((k', v') :: l) k = if k' = k then some v' else alistGet? l k := by
  unfold alistGet?
  by_cases h : k' = k
  · rw [List.find?_cons_of_pos _ (by simpa using h)]
    simp [h]
  · rw [List.find?_cons_of_neg _ (by simpa using h)]
    simp [h]

theorem alistGet?_set_self {α β : Type} [DecidableEq α] (l : List (α × β))
    (k : α) (v : β) : alistGet? (alistSet l k v) k = some v := by
  induction l with
  | nil => simp [alistSet, alistGet?_cons, alistGet?]
  | cons p rest ih =>
      obtain ⟨k', v'⟩ := p
      by_cases h : k' = k
      · simp [alistSet, h, alistGet?_cons]
      · simp [alistSet, h, alistGet?_cons, ih]

theorem alistGet?_set_ne {α β : Type} [DecidableEq α] (l : List (α × β))
    (k k0 : α) (v : β) (hne : k0 ≠ k) :
    alistGet? (alistSet l k v) k0 = alistGet? l k0 := by
  induction l with
  | nil => simp [alistSet, alistGet?_cons, alistGet?, Ne.symm hne]
  | cons p rest ih =>
      obtain ⟨k', v'⟩ := p
      by_cases h : k' = k
      · subst h
        simp [alistSet, alistGet?_cons, Ne.symm hne]
      · simp [alistSet, h, alistGet?_cons, ih]

theorem alistGet?_append_ne {α β : Type} [DecidableEq α] (l : List (α × β))
    (k k0 : α) (v : β) (hne : k0 ≠ k) :
    alistGet? (l ++ [(k, v)]) k0 = alistGet? l k0 := by
  induction l with
  | nil => simp [alistGet?_cons, alistGet?, Ne.symm hne]
  | cons p rest ih =>
      obtain ⟨k', v'⟩ := p
      simp only [List.cons_append, alistGet?_cons, ih]

theorem alistGet?_append_self {α β : Type} [DecidableEq α] (l : List (α × β))
    (k : α) (v : β) (h : alistGet? l k = none) :
    alistGet? (l ++ [(k, v)]) k = some v := by
  induction l with
  | nil => simp [alistGet?_cons, alistGet?]
  | cons p rest ih =>
      obtain ⟨k', v'⟩ := p
      rw [alistGet?_cons] at h
      by_cases hk : k' = k
      · rw [if_pos hk] at h
        cases h
      · rw [List.cons_append, alistGet?_cons, if_neg hk]
        rw [if_neg hk] at h
        exact ih h

namespace SimEngine

theorem schedAppend_tick (e : SimEngine) (t : ℕ) (m : String) :
    (e.schedAppend t m).tick = e.tick := by
  unfold schedAppend
  cases alistGet? e.schedule t <;> rfl

theorem schedAppend_agents (e : SimEngine) (t : ℕ) (m : String) :
    (e.schedAppend t m).agents = e.agents := by
  unfold schedAppend
  cases alistGet? e.schedule t <;> rfl

theorem schedAppend_mem (e : SimEngine) (t : ℕ) (m : String) :
    m ∈ (alistGet? (e.schedAppend t m).schedule t).getD [] := by
  unfold schedAppend
  cases h : alistGet? e.schedule t with
  | some names =>
      simp only [h, alistGet?_set_self]
      simp
  | none =>
      simp only [h]
      simp [alistGet?_append_self e.schedule t [m] h]

theorem schedAppend_preserve (e : SimEngine) (t t' : ℕ) (m name : String)
    (h : name ∈ (alistGet? e.schedule t).getD []) :
    name ∈ (alistGet? (e.schedAppend t' m).schedule t).getD [] := by
  unfold schedAppend
  by_cases het : t' = t
  · subst het
    cases h' : alistGet? e.schedule t' with
    | some names =>
        simp only [h', alistGet?_set_self]
        rw [h'] at h
        simp only [Option.getD_some] at h ⊢
        exact List.mem_append_left _ h
    | none =>
        rw [h'] at h
        simp at h
  · cases h' : alistGet? e.schedule t' with
    | some names =>
        simp only [h']
        rwa [alistGet?_set_ne _ _ _ _ (fun hh => het hh.symm)]
    | none =>
        simp only [h']
        rwa [alistGet?_append_ne _ _ _ _ (fun hh => het hh.symm)]

theorem run_callbacks_tick (names : List String) : ∀ e : SimEngine,
    (run_callbacks e names).tick = e.tick := by
  induction names with
  | nil => intro e; rfl
  | cons m rest ih =>
      intro e
      simp only [run_callbacks, ih, schedAppend_tick]

theorem run_callbacks_agents (names : List String) : ∀ e : SimEngine,
    (run_callbacks e names).agents = e.agents := by
  induction names with
  | nil => intro e; rfl
  | cons m rest ih =>
      intro e
      simp only [run_callbacks, ih, schedAppend_agents]

theorem run_callbacks_preserve (names : List String) : ∀ (e : SimEngine)
    (t : ℕ) (name : String),
    name ∈ (alistGet? e.schedule t).getD [] →
    name ∈ (alistGet? (run_callbacks e names).schedule t).getD [] := by
  induction names with
  | nil => intro e t name h; exact h
  | cons m rest ih =>
      intro e t name h
      simp only [run_callbacks]
      exact ih _ t name (schedAppend_preserve e t _ m name h)

theorem run_callbacks_mem (names : List String) : ∀ (e : SimEngine)
    (name : String), name ∈ names →
    name ∈ (alistGet? (run_callbacks e names).schedule
      (e.tick + (alistGet? e.agents name).getD 1)).getD [] := by
  induction names with
  | nil => intro e name h; cases h
  | cons m rest ih =>
      intro e name h
      rcases List.mem_cons.mp h with hm | hm
      · subst hm
        simp only [run_callbacks]
        exact run_callbacks_preserve rest _ _ name (schedAppend_mem e _ name)
      · simp only [run_callbacks]
        have := ih (e.schedAppend (e.tick + (alistGet? e.agents m).getD 1) m) name hm
        rwa [schedAppend_tick, schedAppend_agents] at this

end SimEngine

/-- C2 counterexample.  Agent a is registered first (start tick 0,
interval 2), agent b second (start tick 2, interval 1).  Both are due at
tick 2, but the third `advance_tick` invokes b before a: rescheduling
appends a name to the tick-2 list after b's registration-time entry, so
same-tick agents are not invoked in registration order. -/
theorem C2_counterexample :
    (let e2 := (({} : SimEngine).register_agent "agent_a" 0 2).register_agent
      "agent_b" 2 1
     (((e2.advance_tick).1.advance_tick).1.advance_tick).2
        = ["agent_b", "agent_a"])
    ∧ (["agent_b", "agent_a"] : List String) ≠ ["agent_a", "agent_b"] := by
  exact ⟨by decide, by decide⟩

/-- C2 (amended).  `advance_tick` invokes the due agents in the order
their names appear in the current tick's schedule list (names are
appended at registration time for their start tick and on rescheduling
at the moment an agent runs, so a rescheduled agent can precede one
registered earlier); each invoked agent is rescheduled for
`current_tick + interval`, and the tick counter increments by exactly
1. -/
theorem C2_advance_tick_order (e : SimEngine) :
    (e.advance_tick).2 = (alistGet? e.schedule e.tick).getD []
    ∧ (e.advance_tick).1.tick = e.tick + 1
    ∧ ∀ name ∈ (e.advance_tick).2,
        name ∈ (alistGet? (e.advance_tick).1.schedule
          (e.tick + (alistGet? e.agents name).getD 1)).getD [] := by
  refine ⟨rfl, ?_, ?_⟩
  · show (SimEngine.run_callbacks
        { e with schedule := e.schedule.filter (fun p => p.1 ≠ e.tick) }
        ((alistGet? e.schedule e.tick).getD [])).tick + 1 = e.tick + 1
    rw [SimEngine.run_callbacks_tick]
  · intro name hmem
    exact SimEngine.run_callbacks_mem ((alistGet? e.schedule e.tick).getD [])
      { e with schedule := e.schedule.filter (fun p => p.1 ≠ e.tick) } name hmem

/-- Witness for C2 (amended): the engine of the counterexample at tick
2, where agent b is among the invoked agents and is rescheduled for tick
3. -/
theorem C2_witness :
    (let e := ((((({} : SimEngine).register_agent "agent_a" 0 2).register_agent
        "agent_b" 2 1).advance_tick).1.advance_tick).1
     "agent_b" ∈ (e.advance_tick).2)
    ∧ (let e := ((((({} : SimEngine).register_agent "agent_a" 0 2).register_agent
        "agent_b" 2 1).advance_tick).1.advance_tick).1
       "agent_b" ∈ (alistGet? (e.advance_tick).1.schedule
         (e.tick + (alistGet? e.agents "agent_b").getD 1)).getD []) :=
  ⟨by decide, (C2_advance_tick_order _).2.2 "agent_b" (by decide)⟩

/-! ## C6: the IDM acceleration formula -/

/-- The closed-form IDM expression in the words of the specification:
the minimum desired gap is
minimum_spacing + max(0, v*headway + v*relative_speed/(2*sqrt(a_max*b))),
the acceleration is a_max * (1 - (v/desired_speed)^delta - (s*/gap)^2),
the gap to a same-edge leader is
max(leader.position - position - leader.length, 0.1), and the
interaction term is 0 when there is no same-edge leader. -/
def idm_formula (v : Vehicle) (sqrtAB : ℚ) (leader : Option Vehicle) : ℚ :=
  let gap : Option ℚ :=
    match leader with
    | some l =>
        if l.current_edge_id = v.current_edge_id then
          some (max (l.position - v.position - l.length) (1/10))
        else none
    | none => none
  let relative_speed : ℚ :=
    match leader with
    | some l =>
        if l.current_edge_id = v.current_edge_id then v.velocity - l.velocity
        else 0
    | none => 0
  let s_star := v.minimum_spacing +
    max 0 (v.velocity * v.desired_time_headway +
      (v.velocity * relative_speed) / (2 * sqrtAB))
  v.acceleration_max *
    (1 - (v.velocity / v.desired_speed) ^ v.delta -
      (match gap with | some g => (s_star / g) ^ 2 | none => 0))

/-- The free-flow vehicle of the spec example: patience 1, velocity 10,
speed limit 20, all IDM parameters at their defaults. -/
def freeVehicle : Vehicle :=
  { vehicle_id := "v_free",
    route := [{ eid := some "edge_a", fromId := some "n_0_0",
                toId := some "n_0_1", length := some 10,
                speed_limit := some 20, capacity := none }],
    patience := 1, destination := "n_0_1", velocity := 10 }

/-- C6.  With positive desired speed, `compute_acceleration` equals the
closed-form IDM expression of the specification for every choice of
leader; nonpositive desired speed yields the fixed comfortable
deceleration; and the free-flow example (no leader, patience 1, v = 10,
speed limit 20, default parameters) evaluates to 0.9375, whatever the
value of the square-root constant. -/
theorem C6_idm_acceleration :
    (∀ (v : Vehicle) (sqrtAB dt : ℚ) (leader : Option Vehicle),
      0 < v.desired_speed →
      v.compute_acceleration sqrtAB leader dt = idm_formula v sqrtAB leader)
    ∧ (∀ (v : Vehicle) (sqrtAB dt : ℚ) (leader : Option Vehicle),
      v.desired_speed ≤ 0 →
      v.compute_acceleration sqrtAB leader dt = -v.deceleration_comfortable)
    ∧ (∀ sqrtAB dt : ℚ,
      freeVehicle.compute_acceleration sqrtAB none dt = 15/16) := by
  refine ⟨?_, ?_, ?_⟩
  · intro v s dt leader h
    unfold Vehicle.compute_acceleration idm_formula
    rw [if_neg (not_le.mpr h)]
    cases leader with
    | none => simp [Vehicle.idm_desired_gap]
    | some l =>
        by_cases he : l.current_edge_id = v.current_edge_id
        · simp [he, Vehicle.idm_desired_gap]
        · simp [he, Vehicle.idm_desired_gap]
  · intro v s dt leader h
    unfold Vehicle.compute_acceleration
    rw [if_pos h]
  · intro s dt
    have hd : freeVehicle.desired_speed = 20 := by
      norm_num [Vehicle.desired_speed, Vehicle.current_edge, freeVehicle,
        List.getD]
    unfold Vehicle.compute_acceleration
    rw [hd]
    rw [if_neg (by norm_num)]
    simp only [Vehicle.idm_desired_gap]
    norm_num [freeVehicle]

/-- Witness for C6: the free-flow vehicle has positive desired speed and
its computed acceleration matches the closed-form expression. -/
theorem C6_witness :
    0 < freeVehicle.desired_speed
    ∧ freeVehicle.compute_acceleration 1 none 1 = idm_formula freeVehicle 1 none :=
  ⟨by norm_num [Vehicle.desired_speed, Vehicle.current_edge, freeVehicle, List.getD],
   C6_idm_acceleration.1 freeVehicle 1 1 none
     (by norm_num [Vehicle.desired_speed, Vehicle.current_edge, freeVehicle, List.getD])⟩

/-! ## C3: a vehicle refused entry at the end of its edge -/

/-- When the travel distance reaches the end of the edge, a next edge
exists and the gate refuses it, `_advance_edge` snaps the position to
the edge's configured length, consumes the whole distance and reports
blocked. -/
theorem advance_edge_refused (v : Vehicle) (distance : ℚ)
    (gate : Edge → Edge → Bool) (L : ℚ)
    (hlen : v.current_edge.length = some L)
    (hnext : v.current_edge_index + 1 < v.route.length)
    (hgate : gate v.current_edge (v.route.getD (v.current_edge_index + 1) emptyEdge)
      = false)
    (hreach : v.edge_remaining ≤ distance) :
    v.advance_edge distance (some gate) = ({ v with position := L }, 0, true) := by
  unfold Vehicle.advance_edge
  have h1 : ¬ (0 < v.edge_remaining ∧ distance < v.edge_remaining) := by
    rintro ⟨-, h2⟩
    exact absurd h2 (not_lt.mpr hreach)
  rw [if_neg h1]
  simp only [hnext, if_true, hgate, hlen]
  simp

/-- Zero distance leaves the step loop immediately, whatever the fuel. -/
theorem step_loop_zero (v : Vehicle) (g : Option (Edge → Edge → Bool)) :
    ∀ fuel : ℕ, Vehicle.step_loop v 0 g fuel = (v, false) := by
  intro fuel
  cases fuel with
  | zero => rfl
  | succ n => simp [Vehicle.step_loop]

/-- C3.  A non-arrived vehicle whose travel distance this tick reaches
the end of its current edge and whose gate refuses the next edge ends
the tick with position equal to the current edge's length, velocity 0,
an unchanged edge index, a stationary counter incremented by 1, and is
still not arrived (the remaining distance is abandoned). -/
theorem C3_gate_refusal (v : Vehicle) (dt sqrtAB : ℚ) (leader : Option Vehicle)
    (gate : Edge → Edge → Bool) (L : ℚ)
    (harr : v.arrived = false)
    (hlen : v.current_edge.length = some L)
    (hnext : v.current_edge_index + 1 < v.route.length)
    (hgate : gate v.current_edge (v.route.getD (v.current_edge_index + 1) emptyEdge)
      = false)
    (hdist : 0 < max (v.velocity * dt
      + v.compute_acceleration sqrtAB leader dt * dt * dt / 2) 0)
    (hreach : v.edge_remaining ≤ max (v.velocity * dt
      + v.compute_acceleration sqrtAB leader dt * dt * dt / 2) 0) :
    (v.step dt sqrtAB leader (some gate)).position = L
    ∧ (v.step dt sqrtAB leader (some gate)).velocity = 0
    ∧ (v.step dt sqrtAB leader (some gate)).current_edge_index
        = v.current_edge_index
    ∧ (v.step dt sqrtAB leader (some gate)).stuck_ticks = v.stuck_ticks + 1
    ∧ (v.step dt sqrtAB leader (some gate)).arrived = false := by
  have hadv := advance_edge_refused
    { v with acceleration := v.compute_acceleration sqrtAB leader dt }
    (max (v.velocity * dt
      + v.compute_acceleration sqrtAB leader dt * dt * dt / 2) 0)
    gate L hlen hnext hgate hreach
  have hloop : Vehicle.step_loop
      { v with acceleration := v.compute_acceleration sqrtAB leader dt }
      (max (v.velocity * dt
        + v.compute_acceleration sqrtAB leader dt * dt * dt / 2) 0)
      (some gate) (v.route.length + 1)
      = ({ v with acceleration := v.compute_acceleration sqrtAB leader dt,
                  position := L }, true) := by
    rw [Vehicle.step_loop, if_pos ⟨hdist, harr⟩]
    simp only [hadv, step_loop_zero, Bool.or_false]
  unfold Vehicle.step
  rw [if_neg (by simp [harr])]
  simp only [hloop]
  simp [Vehicle.update_stuck_state, harr]

/-- A gate that always refuses. -/
def gateClosed : Edge → Edge → Bool := fun _ _ => false

/-- A concrete vehicle near the end of its first edge, travelling fast
enough to reach the intersection this tick. -/
def wVehicle3 : Vehicle :=
  { vehicle_id := "veh_1", route := [edgeA, edgeNoCapacity], patience := 1,
    destination := "n_0_2", position := 9, velocity := 5 }

/-- Witness for C3: the vehicle at position 9 of a 10-length edge with
velocity 5, refused by the gate, ends the tick at position 10 with
velocity 0. -/
theorem C3_witness :
    wVehicle3.arrived = false
    ∧ wVehicle3.current_edge.length = some 10
    ∧ wVehicle3.current_edge_index + 1 < wVehicle3.route.length
    ∧ gateClosed wVehicle3.current_edge
        (wVehicle3.route.getD (wVehicle3.current_edge_index + 1) emptyEdge) = false
    ∧ 0 < max (wVehicle3.velocity * 1
        + wVehicle3.compute_acceleration 1 none 1 * 1 * 1 / 2) 0
    ∧ wVehicle3.edge_remaining ≤ max (wVehicle3.velocity * 1
        + wVehicle3.compute_acceleration 1 none 1 * 1 * 1 / 2) 0
    ∧ (wVehicle3.step 1 1 none (some gateClosed)).position = 10
    ∧ (wVehicle3.step 1 1 none (some gateClosed)).velocity = 0 := by
  have hacc : wVehicle3.compute_acceleration 1 none 1 = 15/16 := by
    norm_num [Vehicle.compute_acceleration, Vehicle.desired_speed,
      Vehicle.current_edge, Vehicle.idm_desired_gap, wVehicle3, edgeA,
      List.getD, max_eq_left]
  have hdist : 0 < max (wVehicle3.velocity * 1
      + wVehicle3.compute_acceleration 1 none 1 * 1 * 1 / 2) 0 := by
    rw [hacc]
    norm_num [wVehicle3, lt_max_iff]
  have hreach : wVehicle3.edge_remaining ≤ max (wVehicle3.velocity * 1
      + wVehicle3.compute_acceleration 1 none 1 * 1 * 1 / 2) 0 := by
    rw [hacc]
    norm_num [wVehicle3, Vehicle.edge_remaining, Vehicle.current_edge, edgeA,
      List.getD, le_max_iff, max_eq_left]
  refine ⟨rfl, rfl, by decide, rfl, hdist, hreach, ?_, ?_⟩
  · exact (C3_gate_refusal wVehicle3 1 1 none gateClosed 10 rfl rfl (by decide)
      rfl hdist hreach).1
  · exact (C3_gate_refusal wVehicle3 1 1 none gateClosed 10 rfl rfl (by decide)
      rfl hdist hreach).2.1

/-! ## C9: step invariants -/

/-- The position invariant of the data model: the position stays within
the current edge (a missing length reading as 0). -/
def PosInv (v : Vehicle) : Prop :=
  0 ≤ v.position ∧ v.position ≤ (v.current_edge.length).getD 0

/-- Data-model well-formedness: every route edge has a nonnegative
length (a missing length reading as 0). -/
def RouteNonneg (v : Vehicle) : Prop :=
  ∀ e ∈ v.route, 0 ≤ (e.length).getD 0

theorem current_edge_mem (v : Vehicle) (h : v.route ≠ []) :
    v.current_edge ∈ v.route := by
  unfold Vehicle.current_edge
  rw [if_neg (by simpa using h)]
  have hpos : 0 < v.route.length := List.length_pos.mpr h
  have hlt : min v.current_edge_index (v.route.length - 1) < v.route.length := by
    omega
  rw [List.getD_eq_getElem v.route emptyEdge hlt]
  exact List.getElem_mem hlt

theorem current_edge_length_nonneg (v : Vehicle) (h : RouteNonneg v) :
    0 ≤ (v.current_edge.length).getD 0 := by
  by_cases hr : v.route = []
  · unfold Vehicle.current_edge
    rw [if_pos (by simp [hr])]
    exact le_refl 0
  · exact h _ (current_edge_mem v hr)

theorem current_edge_congr (a b : Vehicle) (hr : a.route = b.route)
    (hi : a.current_edge_index = b.current_edge_index) :
    a.current_edge = b.current_edge := by
  unfold Vehicle.current_edge
  rw [hr, hi]

/-- The four possible outcomes of `_advance_edge`: advance within the
edge, blocked at the gate, arrival, or a pass-through to the next
edge. -/
theorem advance_edge_shape (v : Vehicle) (d : ℚ)
    (g : Option (Edge → Edge → Bool)) :
    (v.advance_edge d g
        = ({ v with position := v.position + min d v.edge_remaining }, 0, false)
      ∧ 0 < v.edge_remaining ∧ d < v.edge_remaining)
    ∨ (v.advance_edge d g
        = ({ v with position := (v.current_edge.length).getD v.position }, 0, true)
      ∧ v.current_edge_index + 1 < v.route.length)
    ∨ (v.advance_edge d g
        = ({ v with position := 0,
                    current_edge_index := v.current_edge_index + 1,
                    arrived := true, velocity := 0 }, 0, false))
    ∨ (v.advance_edge d g
        = ({ v with position := 0,
                    current_edge_index := v.current_edge_index + 1 },
           d - v.edge_remaining, false)
      ∧ v.current_edge_index + 1 < v.route.length
      ∧ ¬ (0 < v.edge_remaining ∧ d < v.edge_remaining)) := by
  unfold Vehicle.advance_edge
  by_cases h1 : 0 < v.edge_remaining ∧ d < v.edge_remaining
  · rw [if_pos h1]
    exact Or.inl ⟨rfl, h1⟩
  · rw [if_neg h1]
    by_cases h2 : v.current_edge_index + 1 < v.route.length
    · rw [if_pos h2]
      cases g with
      | none =>
          simp only []
          rw [if_neg (by simp)]
          rw [if_neg (not_le.mpr h2)]
          exact Or.inr (Or.inr (Or.inr ⟨rfl, h2, h1⟩))
      | some gate =>
          cases hg : gate v.current_edge
              (v.route.getD (v.current_edge_index + 1) emptyEdge) with
          | false =>
              simp only [hg]
              rw [if_pos (by simp)]
              exact Or.inr (Or.inl ⟨rfl, h2⟩)
          | true =>
              simp only [hg]
              rw [if_neg (by simp)]
              rw [if_neg (not_le.mpr h2)]
              exact Or.inr (Or.inr (Or.inr ⟨rfl, h2, h1⟩))
    · rw [if_neg h2]
      rw [if_neg (by simp)]
      rw [if_pos (le_of_not_lt h2)]
      exact Or.inr (Or.inr (Or.inl rfl))

/-- One `_advance_edge` call preserves the position invariant and the
route, and never decreases the edge index. -/
theorem advance_edge_inv (v : Vehicle) (d : ℚ) (g : Option (Edge → Edge → Bool))
    (hroute : RouteNonneg v) (hpos : PosInv v) (hd : 0 < d) :
    PosInv (v.advance_edge d g).1
    ∧ v.current_edge_index ≤ (v.advance_edge d g).1.current_edge_index
    ∧ (v.advance_edge d g).1.route = v.route := by
  rcases advance_edge_shape v d g with ⟨heq, hrem, hlt⟩ | ⟨heq, hnext⟩ | heq
    | ⟨heq, hnext, hno⟩
  · rw [heq]
    have hmin : min d v.edge_remaining = d := min_eq_left (le_of_lt hlt)
    refine ⟨⟨?_, ?_⟩, le_refl _, rfl⟩
    · show 0 ≤ v.position + min d v.edge_remaining
      rw [hmin]
      exact add_nonneg hpos.1 (le_of_lt hd)
    · show v.position + min d v.edge_remaining ≤ (v.current_edge.length).getD 0
      rw [hmin]
      have hre : v.edge_remaining = (v.current_edge.length).getD 0 - v.position := by
        unfold Vehicle.edge_remaining at hrem ⊢
        rcases max_cases ((v.current_edge.length).getD 0 - v.position) 0 with
          ⟨h1, _⟩ | ⟨h1, _⟩
        · exact h1
        · rw [h1] at hrem
          exact absurd hrem (lt_irrefl 0)
      rw [hre] at hlt
      linarith
  · rw [heq]
    have hne : v.route ≠ [] := by
      intro h0
      rw [h0] at hnext
      simp at hnext
    refine ⟨⟨?_, ?_⟩, le_refl _, rfl⟩
    · show 0 ≤ (v.current_edge.length).getD v.position
      cases hL : v.current_edge.length with
      | none => simpa [hL] using hpos.1
      | some L =>
          have hnn := hroute _ (current_edge_mem v hne)
          rw [hL] at hnn
          simpa using hnn
    · show (v.current_edge.length).getD v.position ≤ (v.current_edge.length).getD 0
      cases hL : v.current_edge.length with
      | none =>
          have h2 := hpos.2
          rw [hL] at h2
          simpa using h2
      | some L => simp
  · rw [heq]
    exact ⟨⟨le_refl 0, current_edge_length_nonneg _ hroute⟩, Nat.le_succ _, rfl⟩
  · rw [heq]
    exact ⟨⟨le_refl 0, current_edge_length_nonneg _ hroute⟩, Nat.le_succ _, rfl⟩

/-- The step loop preserves the position invariant and the route and
never decreases the edge index, whatever the fuel. -/
theorem step_loop_inv (fuel : ℕ) : ∀ (v : Vehicle) (d : ℚ)
    (g : Option (Edge → Edge → Bool)), RouteNonneg v → PosInv v →
    PosInv (Vehicle.step_loop v d g fuel).1
    ∧ v.current_edge_index ≤ (Vehicle.step_loop v d g fuel).1.current_edge_index
    ∧ (Vehicle.step_loop v d g fuel).1.route = v.route := by
  induction fuel with
  | zero =>
      intro v d g _ hp
      exact ⟨hp, le_refl _, rfl⟩
  | succ n ih =>
      intro v d g hr hp
      by_cases hcond : 0 < d ∧ v.arrived = false
      · rw [Vehicle.step_loop, if_pos hcond]
        have hadv := advance_edge_inv v d g hr hp hcond.1
        have hr' : RouteNonneg (v.advance_edge d g).1 := by
          unfold RouteNonneg
          rw [hadv.2.2]
          exact hr
        have hrec := ih (v.advance_edge d g).1 (v.advance_edge d g).2.1 g hr' hadv.1
        exact ⟨hrec.1, le_trans hadv.2.1 hrec.2.1, by rw [hrec.2.2, hadv.2.2]⟩
      · rw [Vehicle.step_loop, if_neg hcond]
        exact ⟨hp, le_refl _, rfl⟩

/-- For a non-arrived vehicle, `step` only moves position, edge index
and route through the step loop: the trailing velocity and stuck updates
leave those fields as the loop produced them. -/
theorem step_fields (v : Vehicle) (dt sqrtAB : ℚ) (leader : Option Vehicle)
    (g : Option (Edge → Edge → Bool)) (ha : v.arrived = false) :
    (v.step dt sqrtAB leader g).position
      = (Vehicle.step_loop
          { v with acceleration := v.compute_acceleration sqrtAB leader dt }
          (max (v.velocity * dt
            + v.compute_acceleration sqrtAB leader dt * dt * dt / 2) 0)
          g (v.route.length + 1)).1.position
    ∧ (v.step dt sqrtAB leader g).current_edge_index
      = (Vehicle.step_loop
          { v with acceleration := v.compute_acceleration sqrtAB leader dt }
          (max (v.velocity * dt
            + v.compute_acceleration sqrtAB leader dt * dt * dt / 2) 0)
          g (v.route.length + 1)).1.current_edge_index
    ∧ (v.step dt sqrtAB leader g).route
      = (Vehicle.step_loop
          { v with acceleration := v.compute_acceleration sqrtAB leader dt }
          (max (v.velocity * dt
            + v.compute_acceleration sqrtAB leader dt * dt * dt / 2) 0)
          g (v.route.length + 1)).1.route := by
  unfold Vehicle.step
  rw [if_neg (by simp [ha])]
  simp only []
  by_cases h2 : (Vehicle.step_loop
      { v with acceleration := v.compute_acceleration sqrtAB leader dt }
      (max (v.velocity * dt
        + v.compute_acceleration sqrtAB leader dt * dt * dt / 2) 0)
      g (v.route.length + 1)).1.arrived = false
  · rw [if_pos h2]
    exact ⟨rfl, rfl, rfl⟩
  · rw [if_neg h2]
    exact ⟨rfl, rfl, rfl⟩

/-- C9.  Under data-model well-formedness (nonnegative route edge
lengths), a `step` call preserves `0 ≤ position ≤ current edge length`,
never decreases the edge index, and on an arrived vehicle pins the
velocity to 0 while leaving position, edge index and the arrived flag
unchanged. -/
theorem C9_step_invariants (v : Vehicle) (dt sqrtAB : ℚ)
    (leader : Option Vehicle) (g : Option (Edge → Edge → Bool))
    (_hdt : 0 ≤ dt) (hroute : RouteNonneg v) (hpos : PosInv v) :
    PosInv (v.step dt sqrtAB leader g)
    ∧ v.current_edge_index ≤ (v.step dt sqrtAB leader g).current_edge_index
    ∧ (v.arrived = true →
        (v.step dt sqrtAB leader g).velocity = 0
        ∧ (v.step dt sqrtAB leader g).position = v.position
        ∧ (v.step dt sqrtAB leader g).current_edge_index = v.current_edge_index
        ∧ (v.step dt sqrtAB leader g).arrived = true) := by
  by_cases ha : v.arrived = true
  · unfold Vehicle.step
    rw [if_pos ha]
    exact ⟨⟨hpos.1, hpos.2⟩, le_refl _, fun _ => ⟨rfl, rfl, rfl, ha⟩⟩
  · have hb : v.arrived = false := by
      revert ha
      cases v.arrived <;> simp
    have hf := step_fields v dt sqrtAB leader g hb
    have hloop := step_loop_inv (v.route.length + 1)
      { v with acceleration := v.compute_acceleration sqrtAB leader dt }
      (max (v.velocity * dt
        + v.compute_acceleration sqrtAB leader dt * dt * dt / 2) 0)
      g hroute hpos
    have hce : (v.step dt sqrtAB leader g).current_edge
        = (Vehicle.step_loop
            { v with acceleration := v.compute_acceleration sqrtAB leader dt }
            (max (v.velocity * dt
              + v.compute_acceleration sqrtAB leader dt * dt * dt / 2) 0)
            g (v.route.length + 1)).1.current_edge :=
      current_edge_congr _ _ hf.2.2 hf.2.1
    refine ⟨⟨?_, ?_⟩, ?_, fun hcontra => absurd hcontra ha⟩
    · rw [hf.1]
      exact hloop.1.1
    · rw [hf.1, hce]
      exact hloop.1.2
    · rw [hf.2.1]
      exact hloop.2.1

/-- Witness for C9 at a concrete vehicle satisfying the invariants. -/
theorem C9_witness :
    (0:ℚ) ≤ 1
    ∧ RouteNonneg wVehicle3
    ∧ PosInv wVehicle3
    ∧ (PosInv (wVehicle3.step 1 1 none (some gateClosed))
       ∧ wVehicle3.current_edge_index
          ≤ (wVehicle3.step 1 1 none (some gateClosed)).current_edge_index
       ∧ (wVehicle3.arrived = true →
          (wVehicle3.step 1 1 none (some gateClosed)).velocity = 0
          ∧ (wVehicle3.step 1 1 none (some gateClosed)).position
              = wVehicle3.position
          ∧ (wVehicle3.step 1 1 none (some gateClosed)).current_edge_index
              = wVehicle3.current_edge_index
          ∧ (wVehicle3.step 1 1 none (some gateClosed)).arrived = true)) := by
  have hr : RouteNonneg wVehicle3 := by
    intro e he
    simp only [wVehicle3, List.mem_cons, List.not_mem_nil, or_false] at he
    rcases he with h | h <;> subst h <;> norm_num [edgeA, edgeNoCapacity]
  have hp : PosInv wVehicle3 := by
    unfold PosInv
    norm_num [wVehicle3, Vehicle.current_edge, edgeA, List.getD]
  exact ⟨by norm_num, hr, hp,
    C9_step_invariants wVehicle3 1 1 none (some gateClosed) (by norm_num) hr hp⟩

/-! ## C8: the spatial index

Supporting lemmas about the stable insertion sort. -/

theorem mem_insort {α : Type} (r : α → α → Prop) [DecidableRel r] (x z : α) :
    ∀ l : List α, z ∈ insort r x l ↔ z = x ∨ z ∈ l := by
  intro l
  induction l with
  | nil => simp [insort]
  | cons y ys ih =>
      unfold insort
      by_cases h : r x y
      · rw [if_pos h]
        simp [or_comm, or_assoc, or_left_comm]
      · rw [if_neg h]
        simp only [List.mem_cons, ih]
        tauto

theorem insort_perm {α : Type} (r : α → α → Prop) [DecidableRel r] (x : α) :
    ∀ l : List α, (insort r x l).Perm (x :: l) := by
  intro l
  induction l with
  | nil => simp [insort]
  | cons y ys ih =>
      unfold insort
      by_cases h : r x y
      · rw [if_pos h]
      · rw [if_neg h]
        exact (List.Perm.cons y ih).trans (List.Perm.swap x y ys)

theorem stableSort_perm {α : Type} (r : α → α → Prop) [DecidableRel r] :
    ∀ l : List α, (stableSort r l).Perm l := by
  intro l
  induction l with
  | nil => simp [stableSort]
  | cons x xs ih =>
      unfold stableSort
      exact (insort_perm r x (stableSort r xs)).trans (List.Perm.cons x ih)

theorem pairwise_insort {α : Type} (r : α → α → Prop) [DecidableRel r]
    (htrans : ∀ a b c, r a b → r b c → r a c)
    (hasymm : ∀ a b, r a b → ¬ r b a) (x : α) :
    ∀ l : List α, List.Pairwise (fun a b => ¬ r b a) l →
    List.Pairwise (fun a b => ¬ r b a) (insort r x l) := by
  intro l
  induction l with
  | nil => intro _; simp [insort]
  | cons y ys ih =>
      intro h
      rw [List.pairwise_cons] at h
      unfold insort
      by_cases hx : r x y
      · rw [if_pos hx]
        refine List.Pairwise.cons ?_ (List.Pairwise.cons h.1 h.2)
        intro z hz
        rcases List.mem_cons.mp hz with hzy | hzys
        · subst hzy
          exact hasymm x z hx
        · intro hrzx
          exact h.1 z hzys (htrans z x y hrzx hx)
      · rw [if_neg hx]
        refine List.Pairwise.cons ?_ (ih h.2)
        intro z hz
        rcases (mem_insort r x z ys).mp hz with hzx | hzys
        · subst hzx
          exact hx
        · exact h.1 z hzys

theorem stableSort_sorted {α : Type} (r : α → α → Prop) [DecidableRel r]
    (htrans : ∀ a b c, r a b → r b c → r a c)
    (hasymm : ∀ a b, r a b → ¬ r b a) :
    ∀ l : List α, List.Pairwise (fun a b => ¬ r b a) (stableSort r l) := by
  intro l
  induction l with
  | nil => simp [stableSort]
  | cons x xs ih =>
      unfold stableSort
      exact pairwise_insort r htrans hasymm x _ ih

/-- The inner bucket dict of an edge, `{}` when the edge is absent. -/
def innerAt (bins : Bins) (e : String) : List (ℤ × List Vehicle) :=
  (alistGet? bins e).getD []

/-- The vehicles the spatial index keeps for edge `e`: not arrived and
currently on `e`. -/
def activeOn (e : String) (w : Vehicle) : Bool :=
  !w.arrived && (w.current_edge_id == e)

theorem bucketAppend_keys_sub (b : ℤ) (v : Vehicle) :
    ∀ (inner : List (ℤ × List Vehicle)) (x : ℤ),
    x ∈ (bucketAppend b v inner).map Prod.fst →
    x = b ∨ x ∈ inner.map Prod.fst := by
  intro inner
  induction inner with
  | nil =>
      intro x hx
      rw [show bucketAppend b v [] = [(b, [v])] from rfl, List.map_cons] at hx
      exact Or.inl (List.mem_singleton.mp hx)
  | cons p rest ih =>
      obtain ⟨b', vs⟩ := p
      intro x hx
      unfold bucketAppend at hx
      by_cases h : b' = b
      · rw [if_pos h, List.map_cons] at hx
        rcases List.mem_cons.mp hx with hx1 | hx2
        · exact Or.inr (by rw [List.map_cons]; exact List.mem_cons.mpr (Or.inl hx1))
        · exact Or.inr (by rw [List.map_cons]; exact List.mem_cons.mpr (Or.inr hx2))
      · rw [if_neg h, List.map_cons] at hx
        rcases List.mem_cons.mp hx with hx1 | hx2
        · exact Or.inr (by rw [List.map_cons]; exact List.mem_cons.mpr (Or.inl hx1))
        · rcases ih x hx2 with h1 | h2
          · exact Or.inl h1
          · exact Or.inr (by rw [List.map_cons]; exact List.mem_cons.mpr (Or.inr h2))

theorem bucketAppend_keys_nodup (b : ℤ) (v : Vehicle) :
    ∀ inner : List (ℤ × List Vehicle),
    (inner.map Prod.fst).Nodup → ((bucketAppend b v inner).map Prod.fst).Nodup := by
  intro inner
  induction inner with
  | nil => intro _; simp [bucketAppend]
  | cons p rest ih =>
      obtain ⟨b', vs⟩ := p
      intro h
      simp only [List.map_cons, List.nodup_cons] at h
      unfold bucketAppend
      by_cases hb : b' = b
      · rw [if_pos hb]
        simp only [List.map_cons, List.nodup_cons]
        exact ⟨h.1, h.2⟩
      · rw [if_neg hb]
        simp only [List.map_cons, List.nodup_cons]
        refine ⟨?_, ih h.2⟩
        intro hmem
        rcases bucketAppend_keys_sub b v rest b' hmem with h1 | h2
        · exact hb h1
        · exact h.1 h2

theorem bucketAppend_M {P : ℤ → Vehicle → Prop} (b : ℤ) (v : Vehicle)
    (hv : P b v) : ∀ inner : List (ℤ × List Vehicle),
    (∀ p ∈ inner, ∀ w ∈ p.2, P p.1 w) →
    ∀ p ∈ bucketAppend b v inner, ∀ w ∈ p.2, P p.1 w := by
  intro inner
  induction inner with
  | nil =>
      intro _ p hp w hw
      rw [show bucketAppend b v [] = [(b, [v])] from rfl] at hp
      rw [List.mem_singleton] at hp
      subst hp
      rw [show ((b, [v]) : ℤ × List Vehicle).2 = [v] from rfl,
        List.mem_singleton] at hw
      subst hw
      exact hv
  | cons q rest ih =>
      obtain ⟨b', vs⟩ := q
      intro hM p hp w hw
      unfold bucketAppend at hp
      by_cases hb : b' = b
      · rw [if_pos hb] at hp
        rcases List.mem_cons.mp hp with hp1 | hp2
        · subst hp1
          rcases List.mem_append.mp hw with hw1 | hw2
          · exact hM (b', vs) (List.mem_cons_self _ _) w hw1
          · rw [List.mem_singleton] at hw2
            subst hw2
            rw [show ((b', vs ++ [w]) : ℤ × List Vehicle).1 = b' from rfl, hb]
            exact hv
        · exact hM p (List.mem_cons_of_mem _ hp2) w hw
      · rw [if_neg hb] at hp
        rcases List.mem_cons.mp hp with hp1 | hp2
        · subst hp1
          exact hM (b', vs) (List.mem_cons_self _ _) w hw
        · exact ih (fun q hq => hM q (List.mem_cons_of_mem _ hq)) p hp2 w hw

theorem bucketAppend_flatten (b : ℤ) (v : Vehicle) :
    ∀ inner : List (ℤ × List Vehicle),
    ((bucketAppend b v inner).map Prod.snd).flatten.Perm
      ((inner.map Prod.snd).flatten ++ [v]) := by
  intro inner
  induction inner with
  | nil => simp [bucketAppend]
  | cons p rest ih =>
      obtain ⟨b', vs⟩ := p
      unfold bucketAppend
      by_cases hb : b' = b
      · rw [if_pos hb]
        simp only [List.map_cons, List.flatten_cons]
        rw [List.append_assoc, List.append_assoc]
        exact List.Perm.append_left vs List.perm_append_comm
      · rw [if_neg hb]
        simp only [List.map_cons, List.flatten_cons]
        rw [List.append_assoc]
        exact List.Perm.append_left vs ih

theorem binsAppend_ne (e0 e : String) (b : ℤ) (v : Vehicle) (h : e0 ≠ e) :
    ∀ bins : Bins, innerAt (binsAppend e b v bins) e0 = innerAt bins e0 := by
  intro bins
  induction bins with
  | nil =>
      unfold binsAppend innerAt
      rw [alistGet?_cons, if_neg (fun hh => h hh.symm)]
  | cons p rest ih =>
      obtain ⟨e', inner⟩ := p
      unfold binsAppend
      by_cases he : e' = e
      · rw [if_pos he]
        subst he
        unfold innerAt
        rw [alistGet?_cons, alistGet?_cons,
          if_neg (fun hh => h hh.symm), if_neg (fun hh => h hh.symm)]
      · rw [if_neg he]
        unfold innerAt at ih ⊢
        rw [alistGet?_cons, alistGet?_cons]
        by_cases he0 : e' = e0
        · rw [if_pos he0, if_pos he0]
        · rw [if_neg he0, if_neg he0]
          exact ih

theorem binsAppend_eq (e : String) (b : ℤ) (v : Vehicle) :
    ∀ bins : Bins,
    innerAt (binsAppend e b v bins) e = bucketAppend b v (innerAt bins e) := by
  intro bins
  induction bins with
  | nil =>
      unfold binsAppend innerAt
      rw [alistGet?_cons, if_pos rfl]
      rfl
  | cons p rest ih =>
      obtain ⟨e', inner⟩ := p
      unfold binsAppend
      by_cases he : e' = e
      · rw [if_pos he]
        subst he
        unfold innerAt
        rw [alistGet?_cons, alistGet?_cons, if_pos rfl, if_pos rfl]
        rfl
      · rw [if_neg he]
        unfold innerAt at ih ⊢
        rw [alistGet?_cons, alistGet?_cons, if_neg he, if_neg he]
        exact ih

theorem occAppend_get (e e0 : String) :
    ∀ occ : List (String × ℕ),
    (alistGet? (occAppend e occ) e0).getD 0
      = (alistGet? occ e0).getD 0 + (if e0 = e then 1 else 0) := by
  intro occ
  induction occ with
  | nil =>
      unfold occAppend
      rw [alistGet?_cons]
      by_cases h : e0 = e
      · rw [if_pos h.symm, if_pos h]
        rfl
      · rw [if_neg (fun hh => h hh.symm), if_neg h]
        rfl
  | cons p rest ih =>
      obtain ⟨e', n⟩ := p
      unfold occAppend
      by_cases he : e' = e
      · rw [if_pos he]
        subst he
        rw [alistGet?_cons, alistGet?_cons]
        by_cases he0 : e' = e0
        · rw [if_pos he0, if_pos he0, if_pos he0.symm]
          rfl
        · rw [if_neg he0, if_neg he0, if_neg (fun hh => he0 hh.symm)]
          rfl
      · rw [if_neg he]
        rw [alistGet?_cons, alistGet?_cons]
        by_cases he0 : e' = e0
        · rw [if_pos he0, if_pos he0, if_neg (fun hh => he (he0.trans hh))]
          rfl
        · rw [if_neg he0, if_neg he0]
          exact ih

theorem buildBins_M (bs : ℚ) (e : String) :
    ∀ (vs : List Vehicle) (st : Bins × List (String × ℕ)),
    (∀ p ∈ innerAt st.1 e, ∀ w ∈ p.2,
      w.arrived = false ∧ w.current_edge_id = e ∧ bucketId bs w = p.1) →
    ∀ p ∈ innerAt (buildBins bs vs st).1 e, ∀ w ∈ p.2,
      w.arrived = false ∧ w.current_edge_id = e ∧ bucketId bs w = p.1 := by
  intro vs
  induction vs with
  | nil => intro st h; exact h
  | cons v rest ih =>
      intro st h
      unfold buildBins
      by_cases ha : v.arrived = true
      · rw [if_pos ha]
        exact ih st h
      · rw [if_neg ha]
        have hvfalse : v.arrived = false := by
          revert ha
          cases v.arrived <;> simp
        apply ih
        intro p hp w hw
        have hp' : p ∈ innerAt (binsAppend v.current_edge_id
            (bucketId bs v) v st.1) e := hp
        by_cases he : v.current_edge_id = e
        · rw [he, binsAppend_eq] at hp'
          exact bucketAppend_M
            (P := fun b w => w.arrived = false ∧ w.current_edge_id = e
              ∧ bucketId bs w = b)
            (bucketId bs v) v ⟨hvfalse, he, rfl⟩ (innerAt st.1 e) h p hp' w hw
        · rw [binsAppend_ne e v.current_edge_id (bucketId bs v) v
            (fun hh => he hh.symm)] at hp'
          exact h p hp' w hw

theorem buildBins_keys (bs : ℚ) (e : String) :
    ∀ (vs : List Vehicle) (st : Bins × List (String × ℕ)),
    ((innerAt st.1 e).map Prod.fst).Nodup →
    ((innerAt (buildBins bs vs st).1 e).map Prod.fst).Nodup := by
  intro vs
  induction vs with
  | nil => intro st h; exact h
  | cons v rest ih =>
      intro st h
      unfold buildBins
      by_cases ha : v.arrived = true
      · rw [if_pos ha]
        exact ih st h
      · rw [if_neg ha]
        apply ih
        show ((innerAt (binsAppend v.current_edge_id (bucketId bs v) v st.1)
          e).map Prod.fst).Nodup
        by_cases he : v.current_edge_id = e
        · rw [he, binsAppend_eq]
          exact bucketAppend_keys_nodup _ _ _ h
        · rw [binsAppend_ne e v.current_edge_id (bucketId bs v) v
            (fun hh => he hh.symm)]
          exact h

theorem buildBins_flatten (bs : ℚ) (e : String) :
    ∀ (vs : List Vehicle) (st : Bins × List (String × ℕ)),
    ((innerAt (buildBins bs vs st).1 e).map Prod.snd).flatten.Perm
      (((innerAt st.1 e).map Prod.snd).flatten ++ vs.filter (activeOn e)) := by
  intro vs
  induction vs with
  | nil => intro st; simp [buildBins]
  | cons v rest ih =>
      intro st
      unfold buildBins
      by_cases ha : v.arrived = true
      · rw [if_pos ha]
        have hfilter : (v :: rest).filter (activeOn e) = rest.filter (activeOn e) := by
          rw [List.filter_cons]
          simp [activeOn, ha]
        rw [hfilter]
        exact ih st
      · rw [if_neg ha]
        have hvfalse : v.arrived = false := by
          revert ha
          cases v.arrived <;> simp
        have h1 := ih (binsAppend v.current_edge_id (bucketId bs v) v st.1,
          occAppend v.current_edge_id st.2)
        simp only [] at h1
        by_cases he : v.current_edge_id = e
        · have hfilter : (v :: rest).filter (activeOn e)
              = v :: rest.filter (activeOn e) := by
            rw [List.filter_cons]
            simp [activeOn, hvfalse, he]
          rw [hfilter]
          have h2 : innerAt (binsAppend v.current_edge_id (bucketId bs v) v st.1) e
              = bucketAppend (bucketId bs v) v (innerAt st.1 e) := by
            rw [he]
            exact binsAppend_eq e (bucketId bs v) v st.1
          rw [h2] at h1
          refine h1.trans ?_
          refine (List.Perm.append_right (rest.filter (activeOn e))
            (bucketAppend_flatten (bucketId bs v) v (innerAt st.1 e))).trans ?_
          rw [List.append_assoc]
          exact List.Perm.refl _
        · have hfilter : (v :: rest).filter (activeOn e)
              = rest.filter (activeOn e) := by
            rw [List.filter_cons]
            simp [activeOn, he]
          rw [hfilter]
          rw [binsAppend_ne e v.current_edge_id (bucketId bs v) v
            (fun hh => he hh.symm)] at h1
          exact h1

theorem buildBins_occ (bs : ℚ) (e : String) :
    ∀ (vs : List Vehicle) (st : Bins × List (String × ℕ)),
    (alistGet? (buildBins bs vs st).2 e).getD 0
      = (alistGet? st.2 e).getD 0 + (vs.filter (activeOn e)).length := by
  intro vs
  induction vs with
  | nil => intro st; simp [buildBins]
  | cons v rest ih =>
      intro st
      unfold buildBins
      by_cases ha : v.arrived = true
      · rw [if_pos ha]
        have hfilter : (v :: rest).filter (activeOn e) = rest.filter (activeOn e) := by
          rw [List.filter_cons]
          simp [activeOn, ha]
        rw [hfilter]
        exact ih st
      · rw [if_neg ha]
        have hvfalse : v.arrived = false := by
          revert ha
          cases v.arrived <;> simp
        have h1 := ih (binsAppend v.current_edge_id (bucketId bs v) v st.1,
          occAppend v.current_edge_id st.2)
        simp only [] at h1
        rw [h1, occAppend_get v.current_edge_id e st.2]
        by_cases he : v.current_edge_id = e
        · have hfilter : (v :: rest).filter (activeOn e)
              = v :: rest.filter (activeOn e) := by
            rw [List.filter_cons]
            simp [activeOn, hvfalse, he]
          rw [hfilter, if_pos he.symm]
          simp only [List.length_cons]
          omega
        · have hfilter : (v :: rest).filter (activeOn e)
              = rest.filter (activeOn e) := by
            rw [List.filter_cons]
            simp [activeOn, he]
          rw [hfilter, if_neg (fun hh => he hh.symm)]
          omega

theorem binsAppend_outer_sub (e : String) (b : ℤ) (v : Vehicle) :
    ∀ (bins : Bins) (x : String),
    x ∈ (binsAppend e b v bins).map Prod.fst → x = e ∨ x ∈ bins.map Prod.fst := by
  intro bins
  induction bins with
  | nil =>
      intro x hx
      rw [show binsAppend e b v [] = [(e, [(b, [v])])] from rfl, List.map_cons] at hx
      exact Or.inl (List.mem_singleton.mp hx)
  | cons p rest ih =>
      obtain ⟨e', inner⟩ := p
      intro x hx
      unfold binsAppend at hx
      by_cases h : e' = e
      · rw [if_pos h, List.map_cons] at hx
        rcases List.mem_cons.mp hx with hx1 | hx2
        · exact Or.inr (by rw [List.map_cons]; exact List.mem_cons.mpr (Or.inl hx1))
        · exact Or.inr (by rw [List.map_cons]; exact List.mem_cons.mpr (Or.inr hx2))
      · rw [if_neg h, List.map_cons] at hx
        rcases List.mem_cons.mp hx with hx1 | hx2
        · exact Or.inr (by rw [List.map_cons]; exact List.mem_cons.mpr (Or.inl hx1))
        · rcases ih x hx2 with h1 | h2
          · exact Or.inl h1
          · exact Or.inr (by rw [List.map_cons]; exact List.mem_cons.mpr (Or.inr h2))

theorem binsAppend_outer_nodup (e : String) (b : ℤ) (v : Vehicle) :
    ∀ bins : Bins,
    (bins.map Prod.fst).Nodup → ((binsAppend e b v bins).map Prod.fst).Nodup := by
  intro bins
  induction bins with
  | nil => intro _; simp [binsAppend]
  | cons p rest ih =>
      obtain ⟨e', inner⟩ := p
      intro h
      simp only [List.map_cons, List.nodup_cons] at h
      unfold binsAppend
      by_cases he : e' = e
      · rw [if_pos he]
        simp only [List.map_cons, List.nodup_cons]
        exact ⟨h.1, h.2⟩
      · rw [if_neg he]
        simp only [List.map_cons, List.nodup_cons]
        refine ⟨?_, ih h.2⟩
        intro hmem
        rcases binsAppend_outer_sub e b v rest e' hmem with h1 | h2
        · exact he h1
        · exact h.1 h2

theorem buildBins_outer_nodup (bs : ℚ) :
    ∀ (vs : List Vehicle) (st : Bins × List (String × ℕ)),
    (st.1.map Prod.fst).Nodup → ((buildBins bs vs st).1.map Prod.fst).Nodup := by
  intro vs
  induction vs with
  | nil => intro st h; exact h
  | cons v rest ih =>
      intro st h
      unfold buildBins
      by_cases ha : v.arrived = true
      · rw [if_pos ha]
        exact ih st h
      · rw [if_neg ha]
        apply ih
        show ((binsAppend v.current_edge_id (bucketId bs v) v st.1).map
          Prod.fst).Nodup
        exact binsAppend_outer_nodup _ _ _ _ h

theorem alistGet?_eq_none_of_not_mem {α β : Type} [DecidableEq α] :
    ∀ (l : List (α × β)) (k : α), k ∉ l.map Prod.fst → alistGet? l k = none := by
  intro l
  induction l with
  | nil => intro k _; rfl
  | cons p rest ih =>
      obtain ⟨k', v'⟩ := p
      intro k hk
      rw [List.map_cons] at hk
      rw [alistGet?_cons, if_neg (fun hh => hk (by rw [hh]; exact List.mem_cons_self _ _))]
      exact ih k (fun hm => hk (List.mem_cons_of_mem _ hm))

theorem lookup_ordered_none (e : String) :
    ∀ bins : Bins, alistGet? bins e = none →
    alistGet? ((bins.map (fun p => (p.1, orderEdge p.2))).filter
      (fun p => ¬p.2.isEmpty)) e = none := by
  intro bins
  induction bins with
  | nil => intro _; rfl
  | cons p rest ih =>
      obtain ⟨e', inner⟩ := p
      intro h
      rw [alistGet?_cons] at h
      by_cases he : e' = e
      · rw [if_pos he] at h
        cases h
      · rw [if_neg he] at h
        rw [List.map_cons, List.filter_cons]
        by_cases hk : ((e', orderEdge inner) : String × List Vehicle).2.isEmpty
        · rw [if_neg (by simpa using hk)]
          exact ih h
        · rw [if_pos (by simpa using hk)]
          rw [alistGet?_cons, if_neg he]
          exact ih h

theorem lookup_ordered (e : String) :
    ∀ bins : Bins, (bins.map Prod.fst).Nodup →
    orderedAt ((bins.map (fun p => (p.1, orderEdge p.2))).filter
      (fun p => ¬p.2.isEmpty)) e = orderEdge (innerAt bins e) := by
  intro bins
  induction bins with
  | nil => intro _; rfl
  | cons p rest ih =>
      obtain ⟨e', inner⟩ := p
      intro hnd
      simp only [List.map_cons, List.nodup_cons] at hnd
      rw [List.map_cons, List.filter_cons]
      by_cases he : e' = e
      · subst he
        have hinner : innerAt (((e', inner) : String × List (ℤ × List Vehicle))
            :: rest) e' = inner := by
          unfold innerAt
          rw [alistGet?_cons, if_pos rfl]
          rfl
        rw [hinner]
        by_cases hk : (orderEdge inner).isEmpty
        · rw [if_neg (by simpa using hk)]
          have hnone : alistGet? rest e' = none :=
            alistGet?_eq_none_of_not_mem rest e' hnd.1
          unfold orderedAt
          rw [lookup_ordered_none e' rest hnone]
          rw [List.isEmpty_iff] at hk
          rw [hk]
          rfl
        · rw [if_pos (by simpa using hk)]
          unfold orderedAt
          rw [alistGet?_cons, if_pos rfl]
          rfl
      · 
        have hinner : innerAt (((e', inner) : String × List (ℤ × List Vehicle))
            :: rest) e = innerAt rest e := by
          unfold innerAt
          rw [alistGet?_cons, if_neg he]
        rw [hinner]
        by_cases hk : (orderEdge inner).isEmpty
        · rw [if_neg (by simpa using hk)]
          exact ih hnd.2
        · rw [if_pos (by simpa using hk)]
          unfold orderedAt
          rw [alistGet?_cons, if_neg he]
          exact ih hnd.2

/-- The claim's ordering relation: strictly higher bucket first, and
inside a bucket, position descending. -/
def lexOrder (bs : ℚ) (a b : Vehicle) : Prop :=
  bucketId bs b < bucketId bs a
  ∨ (bucketId bs a = bucketId bs b ∧ b.position ≤ a.position)

theorem flatten_map_perm {α β : Type} (f g : β → List α)
    (h : ∀ b, (f b).Perm (g b)) :
    ∀ L : List β, ((L.map f).flatten).Perm ((L.map g).flatten) := by
  intro L
  induction L with
  | nil => exact List.Perm.refl _
  | cons b rest ih =>
      simp only [List.map_cons, List.flatten_cons]
      exact List.Perm.append (h b) ih

theorem orderEdge_perm (inner : List (ℤ × List Vehicle)) :
    (orderEdge inner).Perm ((inner.map Prod.snd).flatten) := by
  unfold orderEdge
  have h1 := flatten_map_perm
    (fun p : ℤ × List Vehicle =>
      stableSort (fun a b : Vehicle => b.position < a.position) p.2)
    Prod.snd (fun p => stableSort_perm _ p.2)
    (stableSort (fun p q : ℤ × List Vehicle => q.1 < p.1) inner)
  refine h1.trans ?_
  exact List.Perm.flatten (List.Perm.map Prod.snd (stableSort_perm _ inner))

theorem orderEdge_pairwise (bs : ℚ) (e : String)
    (inner : List (ℤ × List Vehicle))
    (hM : ∀ p ∈ inner, ∀ w ∈ p.2,
      w.arrived = false ∧ w.current_edge_id = e ∧ bucketId bs w = p.1)
    (hnd : (inner.map Prod.fst).Nodup) :
    List.Pairwise (lexOrder bs) (orderEdge inner) := by
  unfold orderEdge
  rw [List.pairwise_flatten]
  have hperm := stableSort_perm (fun p q : ℤ × List Vehicle => q.1 < p.1) inner
  constructor
  · intro seg hseg
    rcases List.mem_map.mp hseg with ⟨p, hpmem, rfl⟩
    have hp_in : p ∈ inner := hperm.subset hpmem
    have hsorted := stableSort_sorted
      (fun a b : Vehicle => b.position < a.position)
      (fun a b c h1 h2 => lt_trans h2 h1) (fun a b h1 => lt_asymm h1) p.2
    refine List.Pairwise.imp_of_mem ?_ hsorted
    intro a b ha hb hab
    have hperm2 := stableSort_perm
      (fun x y : Vehicle => y.position < x.position) p.2
    have ha' := (hM p hp_in a (hperm2.subset ha)).2.2
    have hb' := (hM p hp_in b (hperm2.subset hb)).2.2
    exact Or.inr ⟨ha'.trans hb'.symm, not_lt.mp hab⟩
  · rw [List.pairwise_map]
    have hsorted := stableSort_sorted (fun p q : ℤ × List Vehicle => q.1 < p.1)
      (fun a b c h1 h2 => lt_trans h2 h1) (fun a b h => lt_asymm h) inner
    have hnd2 : ((stableSort (fun p q : ℤ × List Vehicle => q.1 < p.1)
        inner).map Prod.fst).Nodup :=
      (List.Perm.nodup_iff (List.Perm.map Prod.fst hperm)).mpr hnd
    have hnd3 : List.Pairwise (fun p q : ℤ × List Vehicle => p.1 ≠ q.1)
        (stableSort (fun p q : ℤ × List Vehicle => q.1 < p.1) inner) :=
      List.pairwise_map.mp hnd2
    have hcomb := hsorted.and hnd3
    refine List.Pairwise.imp_of_mem ?_ hcomb
    intro p q hp hq hpq x hx y hy
    have hp_in : p ∈ inner := hperm.subset hp
    have hq_in : q ∈ inner := hperm.subset hq
    have hx' := (hM p hp_in x ((stableSort_perm _ p.2).subset hx)).2.2
    have hy' := (hM q hq_in y ((stableSort_perm _ q.2).subset hy)).2.2
    left
    rw [hx', hy']
    exact lt_of_le_of_ne (not_lt.mp hpq.1) (fun hh => hpq.2 hh.symm)

/-- Floor of a rational in the unit interval. -/
theorem ratFloor_eq_zero (q : ℚ) (h1 : 0 ≤ q) (h2 : q < 1) : Rat.floor q = 0 := by
  have ha : (0:ℤ) ≤ Rat.floor q := Rat.le_floor.mpr (by exact_mod_cast h1)
  have hb : ¬ (1:ℤ) ≤ Rat.floor q := by
    intro hc
    have hcast := Rat.le_floor.mp hc
    push_cast at hcast
    linarith
  omega

/-- The spec example's trailing vehicle, at position 3 of edge e_west. -/
def wSlow : Vehicle :=
  { vehicle_id := "veh_slow", route := [edgeA], patience := 1,
    destination := "n_0_1", position := 3 }

/-- The spec example's leading vehicle, at position 9 of edge e_west. -/
def wFast : Vehicle :=
  { vehicle_id := "veh_fast", route := [edgeA], patience := 1,
    destination := "n_0_1", position := 9 }

/-- The spec example: with bin size 20, the index orders the vehicle at
position 9 ahead of the one at position 3, whatever the input order. -/
theorem spatial_example :
    orderedAt (spatialBuild 20 [wSlow, wFast]).1 "e_west" = [wFast, wSlow] := by
  have h3 : bucketId 20 wSlow = 0 :=
    ratFloor_eq_zero _ (by norm_num [wSlow]) (by norm_num [wSlow])
  have h9 : bucketId 20 wFast = 0 :=
    ratFloor_eq_zero _ (by norm_num [wFast]) (by norm_num [wFast])
  have harr1 : wSlow.arrived = false := rfl
  have harr2 : wFast.arrived = false := rfl
  have hcid1 : wSlow.current_edge_id = "e_west" := rfl
  have hcid2 : wFast.current_edge_id = "e_west" := rfl
  have hpos : ¬ (wFast.position < wSlow.position) := by norm_num [wFast, wSlow]
  simp only [spatialBuild, buildBins, harr1, harr2, hcid1, hcid2, h3, h9]
  simp [binsAppend, bucketAppend, occAppend, orderEdge, stableSort, insort,
    orderedAt, alistGet?_cons, hpos]

/-- C8 (general part).  `EdgeSpatialIndex.build` excludes every arrived
vehicle; per edge it returns exactly the non-arrived vehicles of that
edge, ordered bucket-by-bucket from the highest bucket index down with
positions descending inside a bucket (so pairwise: strictly higher
bucket first, and inside equal buckets, higher position first); and the
per-edge occupancy equals the count of non-arrived vehicles on the
edge. -/
theorem C8_spatial_index (bs : ℚ) (vehicles : List Vehicle) (e : String)
    (_hbs : 0 < bs) :
    (∀ w ∈ orderedAt (spatialBuild bs vehicles).1 e,
        w.arrived = false ∧ w.current_edge_id = e)
    ∧ (orderedAt (spatialBuild bs vehicles).1 e).Perm
        (vehicles.filter (activeOn e))
    ∧ List.Pairwise (lexOrder bs) (orderedAt (spatialBuild bs vehicles).1 e)
    ∧ occGet (spatialBuild bs vehicles).2 (some e)
        = (vehicles.filter (activeOn e)).length
    ∧ orderedAt (spatialBuild 20 [wSlow, wFast]).1 "e_west" = [wFast, wSlow] := by
  have houter : ((buildBins bs vehicles ([], [])).1.map Prod.fst).Nodup :=
    buildBins_outer_nodup bs vehicles ([], []) (by simp)
  have hM := buildBins_M bs e vehicles ([], [])
    (by intro p hp; simp [innerAt, alistGet?] at hp)
  have hkeys := buildBins_keys bs e vehicles ([], [])
    (by simp [innerAt, alistGet?])
  have hflat : ((innerAt (buildBins bs vehicles ([], [])).1 e).map
      Prod.snd).flatten.Perm (vehicles.filter (activeOn e)) :=
    buildBins_flatten bs e vehicles ([], [])
  have hlook : orderedAt (spatialBuild bs vehicles).1 e
      = orderEdge (innerAt (buildBins bs vehicles ([], [])).1 e) :=
    lookup_ordered e (buildBins bs vehicles ([], [])).1 houter
  have hperm : (orderedAt (spatialBuild bs vehicles).1 e).Perm
      (vehicles.filter (activeOn e)) := by
    rw [hlook]
    exact (orderEdge_perm _).trans hflat
  refine ⟨?_, hperm, ?_, ?_, spatial_example⟩
  · intro w hw
    have hwf : w ∈ vehicles.filter (activeOn e) := hperm.subset hw
    have hact := (List.mem_filter.mp hwf).2
    unfold activeOn at hact
    rw [Bool.and_eq_true, Bool.not_eq_true', beq_iff_eq] at hact
    exact hact
  · rw [hlook]
    exact orderEdge_pairwise bs e _ hM hkeys
  · have hocc := buildBins_occ bs e vehicles ([], [])
    rw [show (alistGet? ([] : List (String × ℕ)) e).getD 0 = 0 from rfl,
      Nat.zero_add] at hocc
    exact hocc

/-- Witness for C8 at the concrete two-vehicle instance with the default
bin size 20. -/
theorem C8_witness :
    (0:ℚ) < 20
    ∧ ((∀ w ∈ orderedAt (spatialBuild 20 [wSlow, wFast]).1 "e_west",
          w.arrived = false ∧ w.current_edge_id = "e_west")
      ∧ (orderedAt (spatialBuild 20 [wSlow, wFast]).1 "e_west").Perm
          ([wSlow, wFast].filter (activeOn "e_west"))
      ∧ List.Pairwise (lexOrder 20)
          (orderedAt (spatialBuild 20 [wSlow, wFast]).1 "e_west")
      ∧ occGet (spatialBuild 20 [wSlow, wFast]).2 (some "e_west")
          = ([wSlow, wFast].filter (activeOn "e_west")).length
      ∧ orderedAt (spatialBuild 20 [wSlow, wFast]).1 "e_west" = [wFast, wSlow]) :=
  ⟨by norm_num, C8_spatial_index 20 [wSlow, wFast] "e_west" (by norm_num)⟩
